import Mathlib

/- Verification of the geometric/graph puzzle-solving core of the repository:
   the incremental clustering engine of `src/Day8/main.py` (union-find over
   distance-sorted edges) and the orthogonal polygon area engine of
   `src/Day9/main.py` (coordinate compression, boundary marking, flood fill,
   2D prefix sums).  Python lists become Lean `List`s, in-place mutation
   becomes explicit state passing, and `raise ValueError` becomes
   `Except.error`. -/

namespace UF

/-- List update helpers: reading an updated entry. -/
theorem getD_set_self {l : List Nat} {i : Nat} (v d : Nat) (h : i < l.length) :
    (l.set i v).getD i d = v := by
  simp [List.getD_eq_getElem?_getD, List.getElem?_set_self h]

theorem getD_set_ne {l : List Nat} {i j : Nat} (v d : Nat) (h : i ≠ j) :
    (l.set i v).getD j d = l.getD j d := by
  simp [List.getD_eq_getElem?_getD, List.getElem?_set_ne h]

/-- One iteration of the Python loop
`while parents[a] != a: parents[a] = parents[parents[a]]; a = parents[a]`
(path halving), made total with explicit fuel; the source relies on the
forest invariant for termination, which fuel `parents.length` realises
(see `findAux_spec`). -/
def findAux : Nat → List Nat → Nat → Nat × List Nat
  | 0, ps, a => (a, ps)
  | fuel+1, ps, a =>
    if ps.getD a a = a then (a, ps)
    else
      findAux fuel (ps.set a (ps.getD (ps.getD a a) (ps.getD a a)))
        (ps.getD (ps.getD a a) (ps.getD a a))

/-- Models `find` from `src/Day8/main.py`: root lookup with path halving;
returns the root together with the mutated parent array. -/
def find (ps : List Nat) (a : Nat) : Nat × List Nat := findAux ps.length ps a

/-- Models `union` from `src/Day8/main.py`: union by size.  Returns whether a
merge happened together with the mutated parent and size arrays.  The Python
`ra, rb = rb, ra` swap is written out as the two branches of the size test. -/
def union (ps szs : List Nat) (a b : Nat) : Bool × List Nat × List Nat :=
  let fa := find ps a
  let fb := find fa.2 b
  let ra := fa.1
  let rb := fb.1
  if ra = rb then (false, fb.2, szs)
  else
    if szs.getD ra 0 < szs.getD rb 0 then
      (true, fb.2.set ra rb, szs.set rb (szs.getD rb 0 + szs.getD ra 0))
    else
      (true, fb.2.set rb ra, szs.set ra (szs.getD ra 0 + szs.getD rb 0))

/-- Root computation without path compression, used only to state invariants
about the imperative code. -/
def rootAux : Nat → List Nat → Nat → Nat
  | 0, _, a => a
  | fuel+1, ps, a => if ps.getD a a = a then a else rootAux fuel ps (ps.getD a a)

/-- Canonical root of `a` in the parent forest. -/
def rootOf (ps : List Nat) (a : Nat) : Nat := rootAux ps.length ps a

/-- `Reaches ps d a`: following parent pointers from `a` hits a fixpoint
(a root) within `d` steps. -/
def Reaches (ps : List Nat) : Nat → Nat → Prop
  | 0, a => ps.getD a a = a
  | d+1, a => ps.getD a a = a ∨ Reaches ps d (ps.getD a a)

/-- Number of root entries of the parent array. -/
def numRoots (ps : List Nat) : Nat :=
  ((List.range ps.length).filter (fun a => ps.getD a a == a)).length

/-- The union-find invariant: parent entries stay in range, and every chain
reaches a root within `length - numRoots` steps (each missing root accounts
for at most one link on a chain). -/
def Valid (ps : List Nat) : Prop :=
  (∀ a, a < ps.length → ps.getD a a < ps.length) ∧
  (∀ a, a < ps.length → Reaches ps (ps.length - numRoots ps) a)

theorem reaches_succ {ps : List Nat} : ∀ {d a : Nat}, Reaches ps d a → Reaches ps (d+1) a := by
  intro d
  induction d with
  | zero => intro a h; exact Or.inl h
  | succ d ih =>
    intro a h
    cases h with
    | inl h => exact Or.inl h
    | inr h => exact Or.inr (ih h)

theorem reaches_mono {ps : List Nat} {d d' a : Nat} (h : Reaches ps d a) (hle : d ≤ d') :
    Reaches ps d' a := by
  induction hle with
  | refl => exact h
  | step _ ih => exact reaches_succ ih

theorem rootAux_of_root {ps : List Nat} {a : Nat} (h : ps.getD a a = a) :
    ∀ f, rootAux f ps a = a := by
  intro f; cases f with
  | zero => rfl
  | succ f => simp only [rootAux]; rw [if_pos h]

theorem rootAux_step {ps : List Nat} {a : Nat} (h : ps.getD a a ≠ a) (f : Nat) :
    rootAux (f+1) ps a = rootAux f ps (ps.getD a a) := by
  simp only [rootAux]; rw [if_neg h]

/-- Within sufficient fuel, `rootAux` reaches an actual root. -/
theorem rootAux_isRoot {ps : List Nat} :
    ∀ {d a : Nat}, Reaches ps d a → ∀ {f}, d ≤ f →
      ps.getD (rootAux f ps a) (rootAux f ps a) = rootAux f ps a := by
  intro d
  induction d with
  | zero =>
    intro a h f _
    rw [rootAux_of_root h]; exact h
  | succ d ih =>
    intro a h f hf
    by_cases hr : ps.getD a a = a
    · rw [rootAux_of_root hr]; exact hr
    · cases h with
      | inl h => exact absurd h hr
      | inr h =>
        obtain ⟨f', rfl⟩ : ∃ f', f = f' + 1 := ⟨f - 1, by omega⟩
        rw [rootAux_step hr]
        exact ih h (by omega)

/-- The root does not depend on the fuel once the fuel is sufficient. -/
theorem rootAux_stable {ps : List Nat} :
    ∀ {d a : Nat}, Reaches ps d a → ∀ {f f'}, d ≤ f → d ≤ f' →
      rootAux f ps a = rootAux f' ps a := by
  intro d
  induction d with
  | zero =>
    intro a h f f' _ _
    rw [rootAux_of_root h, rootAux_of_root h]
  | succ d ih =>
    intro a h f f' hf hf'
    by_cases hr : ps.getD a a = a
    · rw [rootAux_of_root hr, rootAux_of_root hr]
    · cases h with
      | inl h => exact absurd h hr
      | inr h =>
        obtain ⟨fa, rfl⟩ : ∃ fa, f = fa + 1 := ⟨f - 1, by omega⟩
        obtain ⟨fb, rfl⟩ : ∃ fb, f' = fb + 1 := ⟨f' - 1, by omega⟩
        rw [rootAux_step hr, rootAux_step hr]
        exact ih h (by omega) (by omega)

/-- The root stays inside the array when all parent entries do. -/
theorem rootAux_lt {ps : List Nat} {n : Nat}
    (hb : ∀ a, a < n → ps.getD a a < n) :
    ∀ f a, a < n → rootAux f ps a < n := by
  intro f
  induction f with
  | zero => intro a ha; exact ha
  | succ f ih =>
    intro a ha
    by_cases hr : ps.getD a a = a
    · rw [rootAux_of_root hr]; exact ha
    · rw [rootAux_step hr]
      exact ih _ (hb a ha)

/-- Following one parent link does not change the root (with enough fuel). -/
theorem rootAux_parent {ps : List Nat} {d a : Nat} (hr : ps.getD a a ≠ a)
    (h : Reaches ps (d+1) a) {f : Nat} (hf : d + 1 ≤ f) :
    rootAux f ps a = rootAux f ps (ps.getD a a) := by
  obtain ⟨g, rfl⟩ : ∃ g, f = g + 1 := ⟨f - 1, by omega⟩
  rw [rootAux_step hr]
  cases h with
  | inl h => exact absurd h hr
  | inr h => exact rootAux_stable h (by omega) (by omega)

/-- Out of range, every entry is its own root. -/
theorem getD_self_of_ge {ps : List Nat} {a : Nat} (h : ps.length ≤ a) :
    ps.getD a a = a := by
  simp [List.getD_eq_getElem?_getD, List.getElem?_eq_none (by omega : ps.length ≤ a)]

/-- A two-cycle in the parent array is unreachable from the invariant. -/
theorem no_two_cycle {ps : List Nat} {a : Nat} (ha : ps.getD a a ≠ a)
    (hg : ps.getD (ps.getD a a) (ps.getD a a) = a) :
    ∀ d, ¬ Reaches ps d a ∧ ¬ Reaches ps d (ps.getD a a) := by
  intro d
  induction d with
  | zero =>
    constructor
    · exact ha
    · intro h
      simp only [Reaches] at h
      rw [hg] at h
      exact ha h.symm
  | succ d ih =>
    constructor
    · intro h
      cases h with
      | inl h => exact ha h
      | inr h => exact ih.2 h
    · intro h
      cases h with
      | inl h => rw [hg] at h; exact ha h.symm
      | inr h => rw [hg] at h; exact ih.1 h

/-- Two parent arrays with the same length, the same set of roots and the
same root assignment. `find` only reshapes chains, it never changes this. -/
def SameShape (ps ps' : List Nat) : Prop :=
  ps'.length = ps.length ∧
  (∀ b, (ps'.getD b b = b) ↔ (ps.getD b b = b)) ∧
  (∀ b, rootOf ps' b = rootOf ps b)

theorem sameShape_refl (ps : List Nat) : SameShape ps ps :=
  ⟨rfl, fun _ => Iff.rfl, fun _ => rfl⟩

theorem sameShape_trans {ps ps' ps'' : List Nat}
    (h1 : SameShape ps ps') (h2 : SameShape ps' ps'') : SameShape ps ps'' :=
  ⟨h2.1.trans h1.1, fun b => (h2.2.1 b).trans (h1.2.1 b),
    fun b => (h2.2.2 b).trans (h1.2.2 b)⟩

theorem beq_congr_of_iff {a b c d : Nat} (h : (a = b) ↔ (c = d)) :
    (a == b) = (c == d) := by
  by_cases h1 : c = d
  · have h2 : a = b := h.mpr h1
    subst h1; subst h2
    simp
  · have h2 : ¬ a = b := fun hc => h1 (h.mp hc)
    rw [beq_eq_false_iff_ne.mpr h2, beq_eq_false_iff_ne.mpr h1]

theorem numRoots_eq_of_sameShape {ps ps' : List Nat} (h : SameShape ps ps') :
    numRoots ps' = numRoots ps := by
  unfold numRoots
  rw [h.1]
  congr 1
  apply List.filter_congr
  intro x _
  exact beq_congr_of_iff (h.2.1 x)

/-- Path halving at a non-root `a` keeps every reachability bound and every
root unchanged.  The hypothesis `hg` (no two-cycle through `a`) follows from
the forest invariant at every use site. -/
theorem reaches_halve {ps : List Nat} {a : Nat} (ha : ps.getD a a ≠ a)
    (hg : ps.getD (ps.getD a a) (ps.getD a a) ≠ a) :
    ∀ d b, Reaches ps d b →
      Reaches (ps.set a (ps.getD (ps.getD a a) (ps.getD a a))) d b ∧
      (∀ f, d ≤ f →
        rootAux f (ps.set a (ps.getD (ps.getD a a) (ps.getD a a))) b
          = rootAux f ps b) := by
  have hlen : a < ps.length := by
    by_contra hc
    exact ha (getD_self_of_ge (by omega))
  intro d
  induction d using Nat.strong_induction_on with
  | _ d ih =>
    intro b hb
    by_cases hroot : ps.getD b b = b
    · have hba : b ≠ a := fun hc => ha (hc ▸ hroot)
      have hPb : (ps.set a (ps.getD (ps.getD a a) (ps.getD a a))).getD b b = b := by
        rw [getD_set_ne _ _ (fun hc => hba hc.symm)]; exact hroot
      refine ⟨reaches_mono (show Reaches _ 0 b from hPb) (Nat.zero_le d), ?_⟩
      intro f _
      rw [rootAux_of_root hPb, rootAux_of_root hroot]
    · obtain ⟨d', rfl⟩ : ∃ d', d = d' + 1 := by
        cases d with
        | zero => exact absurd hb hroot
        | succ d' => exact ⟨d', rfl⟩
      have hb' : Reaches ps d' (ps.getD b b) := by
        cases hb with
        | inl h => exact absurd h hroot
        | inr h => exact h
      by_cases hba : b = a
      · subst hba
        have hPb : (ps.set b (ps.getD (ps.getD b b) (ps.getD b b))).getD b b
            = ps.getD (ps.getD b b) (ps.getD b b) := getD_set_self _ _ hlen
        by_cases hpa : ps.getD (ps.getD b b) (ps.getD b b) = ps.getD b b
        · -- the parent of `b` is already a root
          have hpb : ps.getD b b ≠ b := hroot
          have hroot' : (ps.set b (ps.getD (ps.getD b b) (ps.getD b b))).getD
              (ps.getD (ps.getD b b) (ps.getD b b)) (ps.getD (ps.getD b b) (ps.getD b b))
              = ps.getD (ps.getD b b) (ps.getD b b) := by
            rw [hpa]
            rw [getD_set_ne _ _ (fun hc => hpb hc.symm)]
            rw [hpa]
          refine ⟨Or.inr ?_, ?_⟩
          · exact reaches_mono (show Reaches _ 0 _ by rw [hPb]; exact hroot')
              (Nat.zero_le d')
          · intro f hf
            obtain ⟨f', rfl⟩ : ∃ f', f = f' + 1 := ⟨f - 1, by omega⟩
            have hPnr : (ps.set b (ps.getD (ps.getD b b) (ps.getD b b))).getD b b ≠ b := by
              rw [hPb]; exact hg
            rw [rootAux_step hPnr, rootAux_step hroot, hPb,
              rootAux_of_root hroot', rootAux_of_root hpa]
            exact hpa
        · -- the parent of `b` is itself not a root: descend two levels
          obtain ⟨d'', rfl⟩ : ∃ d'', d' = d'' + 1 := by
            cases d' with
            | zero => exact absurd hb' hpa
            | succ d'' => exact ⟨d'', rfl⟩
          have hb'' : Reaches ps d'' (ps.getD (ps.getD b b) (ps.getD b b)) := by
            cases hb' with
            | inl h => exact absurd h hpa
            | inr h => exact h
          obtain ⟨r1, r2⟩ := ih d'' (by omega) _ hb''
          refine ⟨Or.inr ?_, ?_⟩
          · rw [hPb]
            exact reaches_mono r1 (by omega)
          · intro f hf
            obtain ⟨f', rfl⟩ : ∃ f', f = f' + 1 := ⟨f - 1, by omega⟩
            have hPnr : (ps.set b (ps.getD (ps.getD b b) (ps.getD b b))).getD b b ≠ b := by
              rw [hPb]; exact hg
            rw [rootAux_step hPnr, rootAux_step hroot, hPb]
            rw [r2 f' (by omega)]
            exact (rootAux_parent hpa (Or.inr hb'') (by omega)).symm
      · -- `b` is untouched by the update
        have hPb : (ps.set a (ps.getD (ps.getD a a) (ps.getD a a))).getD b b
            = ps.getD b b := getD_set_ne _ _ (fun hc => hba hc.symm)
        obtain ⟨r1, r2⟩ := ih d' (by omega) _ hb'
        refine ⟨Or.inr ?_, ?_⟩
        · rw [hPb]; exact r1
        · intro f hf
          obtain ⟨f', rfl⟩ : ∃ f', f = f' + 1 := ⟨f - 1, by omega⟩
          have hPnr : (ps.set a (ps.getD (ps.getD a a) (ps.getD a a))).getD b b ≠ b := by
            rw [hPb]; exact hroot
          rw [rootAux_step hPnr, rootAux_step hroot, hPb]
          exact r2 f' (by omega)

theorem rootOf_isRoot {ps : List Nat} (hv : Valid ps) {a : Nat} (ha : a < ps.length) :
    ps.getD (rootOf ps a) (rootOf ps a) = rootOf ps a :=
  rootAux_isRoot (hv.2 a ha) (Nat.sub_le _ _)

theorem rootOf_lt {ps : List Nat} (hv : Valid ps) {a : Nat} (ha : a < ps.length) :
    rootOf ps a < ps.length :=
  rootAux_lt hv.1 _ a ha

theorem rootOf_of_root {ps : List Nat} {a : Nat} (h : ps.getD a a = a) :
    rootOf ps a = a :=
  rootAux_of_root h _

theorem rootOf_of_ge {ps : List Nat} {a : Nat} (h : ps.length ≤ a) :
    rootOf ps a = a :=
  rootAux_of_root (getD_self_of_ge h) _

/-- Stepping to the parent does not change the root. -/
theorem rootOf_parent {ps : List Nat} (hv : Valid ps) {a : Nat} (ha : a < ps.length) :
    rootOf ps a = rootOf ps (ps.getD a a) := by
  by_cases hr : ps.getD a a = a
  · rw [rootOf_of_root hr, hr, rootOf_of_root hr]
  · have hre := hv.2 a ha
    obtain ⟨d, hd⟩ : ∃ d, ps.length - numRoots ps = d + 1 := by
      cases hB : ps.length - numRoots ps with
      | zero =>
        rw [hB] at hre
        exact absurd hre hr
      | succ d => exact ⟨d, rfl⟩
    rw [hd] at hre
    exact rootAux_parent hr hre (by omega)

/-- `a` is a root exactly when it is its own `rootOf`. -/
theorem rootOf_eq_self_iff {ps : List Nat} (hv : Valid ps) {a : Nat} (ha : a < ps.length) :
    rootOf ps a = a ↔ ps.getD a a = a := by
  constructor
  · intro h
    have := rootOf_isRoot hv ha
    rw [h] at this
    exact this
  · exact rootOf_of_root

/-- Path halving preserves the shape of the forest. -/
theorem sameShape_halve {ps : List Nat} (hv : Valid ps) {a : Nat}
    (ha : ps.getD a a ≠ a)
    (hg : ps.getD (ps.getD a a) (ps.getD a a) ≠ a) :
    SameShape ps (ps.set a (ps.getD (ps.getD a a) (ps.getD a a))) := by
  have hlen : a < ps.length := by
    by_contra hc
    exact ha (getD_self_of_ge (by omega))
  refine ⟨List.length_set ps a _, ?_, ?_⟩
  · intro b
    by_cases hba : b = a
    · subst hba
      rw [getD_set_self _ _ hlen]
      exact ⟨fun h => absurd h hg, fun h => absurd h ha⟩
    · rw [getD_set_ne _ _ (fun hc => hba hc.symm)]
  · intro b
    by_cases hb : b < ps.length
    · have hre := hv.2 b hb
      have := (reaches_halve ha hg _ b hre).2 ps.length (Nat.sub_le _ _)
      unfold rootOf
      rw [List.length_set]
      exact this
    · rw [rootOf_of_ge
          (show (ps.set a (ps.getD (ps.getD a a) (ps.getD a a))).length ≤ b by
            rw [List.length_set]; omega),
        rootOf_of_ge (show ps.length ≤ b by omega)]

/-- Path halving preserves the union-find invariant. -/
theorem valid_halve {ps : List Nat} (hv : Valid ps) {a : Nat}
    (ha : ps.getD a a ≠ a)
    (hg : ps.getD (ps.getD a a) (ps.getD a a) ≠ a) :
    Valid (ps.set a (ps.getD (ps.getD a a) (ps.getD a a))) := by
  have hlen : a < ps.length := by
    by_contra hc
    exact ha (getD_self_of_ge (by omega))
  have hpa : ps.getD a a < ps.length := hv.1 a hlen
  have hshape := sameShape_halve hv ha hg
  constructor
  · intro b hb
    rw [List.length_set] at hb
    rw [List.length_set]
    by_cases hba : b = a
    · subst hba
      rw [getD_set_self _ _ hlen]
      exact hv.1 _ hpa
    · rw [getD_set_ne _ _ (fun hc => hba hc.symm)]
      exact hv.1 b hb
  · intro b hb
    rw [List.length_set] at hb
    rw [List.length_set, numRoots_eq_of_sameShape hshape]
    exact (reaches_halve ha hg _ b (hv.2 b hb)).1

/-- Full specification of `findAux`: given the invariant and sufficient fuel
it returns the true root and only reshapes the forest. -/
theorem findAux_spec :
    ∀ (fuel : Nat) (ps : List Nat) (a d : Nat),
      Valid ps → a < ps.length → Reaches ps d a → d ≤ fuel →
      (findAux fuel ps a).1 = rootOf ps a ∧
      SameShape ps (findAux fuel ps a).2 ∧
      Valid (findAux fuel ps a).2 := by
  intro fuel
  induction fuel with
  | zero =>
    intro ps a d hv ha hre hd
    have hd0 : d = 0 := by omega
    subst hd0
    have hroot : ps.getD a a = a := hre
    simp only [findAux]
    exact ⟨(rootOf_of_root hroot).symm, sameShape_refl ps, hv⟩
  | succ fuel ih =>
    intro ps a d hv ha hre hd
    by_cases hroot : ps.getD a a = a
    · simp only [findAux]
      rw [if_pos hroot]
      exact ⟨(rootOf_of_root hroot).symm, sameShape_refl ps, hv⟩
    · have hg : ps.getD (ps.getD a a) (ps.getD a a) ≠ a := by
        intro hc
        exact ((no_two_cycle hroot hc d).1) hre
      have hpa : ps.getD a a < ps.length := hv.1 a ha
      have hglt : ps.getD (ps.getD a a) (ps.getD a a) < ps.length := hv.1 _ hpa
      have hshape := sameShape_halve hv hroot hg
      have hvP := valid_halve hv hroot hg
      obtain ⟨d', rfl⟩ : ∃ d', d = d' + 1 := by
        cases d with
        | zero => exact absurd hre hroot
        | succ d' => exact ⟨d', rfl⟩
      have hre' : Reaches ps d' (ps.getD a a) := by
        cases hre with
        | inl h => exact absurd h hroot
        | inr h => exact h
      -- reachability of the grandparent in the updated array
      have hreP : Reaches (ps.set a (ps.getD (ps.getD a a) (ps.getD a a))) d'
          (ps.getD (ps.getD a a) (ps.getD a a)) := by
        by_cases hpar : ps.getD (ps.getD a a) (ps.getD a a) = ps.getD a a
        · have hParRoot : (ps.set a (ps.getD (ps.getD a a) (ps.getD a a))).getD
              (ps.getD (ps.getD a a) (ps.getD a a)) (ps.getD (ps.getD a a) (ps.getD a a))
              = ps.getD (ps.getD a a) (ps.getD a a) := by
            rw [getD_set_ne _ _ (fun hc => hroot (hpar ▸ hc).symm)]
            rw [hpar]
            exact hpar
          exact reaches_mono (show Reaches _ 0 _ from hParRoot) (Nat.zero_le d')
        · obtain ⟨d'', rfl⟩ : ∃ d'', d' = d'' + 1 := by
            cases d' with
            | zero => exact absurd hre' hpar
            | succ d'' => exact ⟨d'', rfl⟩
          have hre'' : Reaches ps d'' (ps.getD (ps.getD a a) (ps.getD a a)) := by
            cases hre' with
            | inl h => exact absurd h hpar
            | inr h => exact h
          exact reaches_mono (reaches_halve hroot hg d'' _ hre'').1 (by omega)
      have hrootPs : rootOf ps a = rootOf ps (ps.getD (ps.getD a a) (ps.getD a a)) := by
        rw [rootOf_parent hv ha, rootOf_parent hv hpa]
      have hlenP : ps.getD (ps.getD a a) (ps.getD a a)
          < (ps.set a (ps.getD (ps.getD a a) (ps.getD a a))).length := by
        rw [List.length_set]
        exact hglt
      obtain ⟨ih1, ih2, ih3⟩ := ih _ _ d' hvP hlenP hreP (by omega)
      have hstep : findAux (fuel+1) ps a
          = findAux fuel (ps.set a (ps.getD (ps.getD a a) (ps.getD a a)))
              (ps.getD (ps.getD a a) (ps.getD a a)) := by
        simp only [findAux]
        rw [if_neg hroot]
      rw [hstep]
      refine ⟨?_, sameShape_trans hshape ih2, ih3⟩
      rw [ih1, hshape.2.2, hrootPs]

/-- Specification of `find` (path halving with fuel `parents.length`). -/
theorem find_spec {ps : List Nat} (hv : Valid ps) {a : Nat} (ha : a < ps.length) :
    (find ps a).1 = rootOf ps a ∧ SameShape ps (find ps a).2 ∧ Valid (find ps a).2 :=
  findAux_spec ps.length ps a _ hv ha (hv.2 a ha) (Nat.sub_le _ _)

/-- Total size stored at the roots; the key conservation quantity of the
engine (`sizes` entries at non-roots are stale, the roots hold the component
sizes and their total never changes). -/
def rootSum (ps szs : List Nat) : Nat :=
  (((List.range ps.length).filter (fun a => ps.getD a a == a)).map
    (fun a => szs.getD a 0)).sum

theorem rootSum_congr {ps ps' szs : List Nat} (h : SameShape ps ps') :
    rootSum ps' szs = rootSum ps szs := by
  unfold rootSum
  rw [h.1]
  have hfilter : (List.range ps.length).filter (fun a => ps'.getD a a == a)
      = (List.range ps.length).filter (fun a => ps.getD a a == a) :=
    List.filter_congr (fun x _ => beq_congr_of_iff (h.2.1 x))
  rw [hfilter]

/-- Generic bookkeeping lemma: dropping element `c` from a filtered sum while
adding its weight onto element `r` keeps the total. -/
theorem filterMapSum_link (l : List Nat) (hnd : l.Nodup) (r c : Nat) (hne : r ≠ c)
    (hr : r ∈ l) (hc : c ∈ l)
    (p p' : Nat → Bool) (f f' : Nat → Nat)
    (hpr : p r = true) (hpc : p c = true)
    (hp'r : p' r = true) (hp'c : p' c = false)
    (hp : ∀ x, x ≠ c → p' x = p x)
    (hfr : f' r = f r + f c)
    (hf : ∀ x, x ≠ r → f' x = f x) :
    ((l.filter p').map f').sum = ((l.filter p).map f).sum := by
  have hc1 : c ∈ l.erase r := (List.mem_erase_of_ne (Ne.symm hne)).mpr hc
  have hperm : l.Perm (r :: c :: (l.erase r).erase c) :=
    (List.perm_cons_erase hr).trans ((List.perm_cons_erase hc1).cons r)
  have hnd1 : (l.erase r).Nodup := hnd.erase r
  have hmem : ∀ x ∈ (l.erase r).erase c, x ≠ c ∧ x ≠ r := by
    intro x hx
    have h1 := (hnd1.mem_erase_iff.mp hx)
    have h2 := (hnd.mem_erase_iff.mp h1.2)
    exact ⟨h1.1, h2.1⟩
  rw [((hperm.filter p').map f').sum_eq, ((hperm.filter p).map f).sum_eq]
  rw [List.filter_cons_of_pos hp'r, List.filter_cons_of_neg (by rw [hp'c]; exact Bool.false_ne_true)]
  rw [List.filter_cons_of_pos hpr, List.filter_cons_of_pos hpc]
  simp only [List.map_cons, List.sum_cons]
  have hfilter : ((l.erase r).erase c).filter p' = ((l.erase r).erase c).filter p :=
    List.filter_congr (fun x hx => hp x (hmem x hx).1)
  have hmap : (((l.erase r).erase c).filter p).map f'
      = (((l.erase r).erase c).filter p).map f := by
    apply List.map_congr_left
    intro x hx
    exact hf x (hmem x (List.mem_of_mem_filter hx)).2
  rw [hfilter, hmap, hfr]
  omega

theorem numRoots_le {ps : List Nat} : numRoots ps ≤ ps.length := by
  calc numRoots ps ≤ (List.range ps.length).length := List.length_filter_le _ _
  _ = ps.length := List.length_range _

theorem numRoots_pos {ps : List Nat} {r : Nat} (hr : r < ps.length)
    (hroot : ps.getD r r = r) : 1 ≤ numRoots ps := by
  have : r ∈ (List.range ps.length).filter (fun a => ps.getD a a == a) :=
    List.mem_filter.mpr ⟨List.mem_range.mpr hr, beq_iff_eq.mpr hroot⟩
  exact List.length_pos_of_mem this

/-- Linking root `c` under root `r`: root census of the updated array. -/
theorem link_isRoot {ps : List Nat} {c r : Nat} (hne : r ≠ c) (hc : c < ps.length) :
    ∀ b, ((ps.set c r).getD b b = b) ↔ (ps.getD b b = b ∧ b ≠ c) := by
  intro b
  by_cases hbc : b = c
  · subst hbc
    rw [getD_set_self _ _ hc]
    exact ⟨fun h => absurd h hne, fun h => absurd rfl h.2⟩
  · rw [getD_set_ne _ _ (fun hcc => hbc hcc.symm)]
    exact ⟨fun h => ⟨h, hbc⟩, fun h => h.1⟩

theorem filter_cons_pos (p : Nat → Bool) (x : Nat) (l : List Nat) (h : p x = true) :
    (x :: l).filter p = x :: l.filter p := by
  simp [List.filter_cons, h]

theorem filter_cons_neg (p : Nat → Bool) (x : Nat) (l : List Nat) (h : p x = false) :
    (x :: l).filter p = l.filter p := by
  simp [List.filter_cons, h]

theorem link_numRoots {ps : List Nat} {c r : Nat} (hne : r ≠ c)
    (hc : c < ps.length) (hcr : ps.getD c c = c) :
    numRoots (ps.set c r) + 1 = numRoots ps := by
  unfold numRoots
  rw [List.length_set]
  -- count the roots on a generic duplicate-free list
  have key : ∀ l : List Nat, l.Nodup → c ∈ l →
      (l.filter (fun a => (ps.set c r).getD a a == a)).length + 1
        = (l.filter (fun a => ps.getD a a == a)).length := by
    intro l
    induction l with
    | nil => intro _ h; cases h
    | cons x t ihl =>
      intro hnd hmem
      by_cases hxc : x = c
      · subst hxc
        rw [filter_cons_pos (fun a => ps.getD a a == a) x t (beq_iff_eq.mpr hcr)]
        rw [filter_cons_neg (fun a => (ps.set x r).getD a a == a) x t
          (beq_eq_false_iff_ne.mpr (by
            rw [getD_set_self _ _ hc]
            exact hne))]
        have : t.filter (fun a => (ps.set x r).getD a a == a)
            = t.filter (fun a => ps.getD a a == a) := by
          apply List.filter_congr
          intro y hy
          have hyc : y ≠ x := fun hcc => (List.nodup_cons.mp hnd).1 (hcc ▸ hy)
          exact beq_congr_of_iff (by
            rw [getD_set_ne _ _ (fun hcc => hyc hcc.symm)])
        rw [this, List.length_cons]
      · have hmem' : c ∈ t := by
          cases hmem with
          | head => exact absurd rfl hxc
          | tail _ h => exact h
        have heq : ((ps.set c r).getD x x == x) = (ps.getD x x == x) :=
          beq_congr_of_iff (by rw [getD_set_ne _ _ (fun hcc => hxc hcc.symm)])
        by_cases hpx : (ps.getD x x == x) = true
        · rw [filter_cons_pos (fun a => (ps.set c r).getD a a == a) x t
              (by show ((ps.set c r).getD x x == x) = true; rw [heq]; exact hpx),
            filter_cons_pos (fun a => ps.getD a a == a) x t hpx]
          simp only [List.length_cons]
          have := ihl (List.nodup_cons.mp hnd).2 hmem'
          omega
        · rw [filter_cons_neg (fun a => (ps.set c r).getD a a == a) x t
              (by
                show ((ps.set c r).getD x x == x) = false
                rw [heq]
                exact Bool.eq_false_iff.mpr hpx),
            filter_cons_neg (fun a => ps.getD a a == a) x t (Bool.eq_false_iff.mpr hpx)]
          exact ihl (List.nodup_cons.mp hnd).2 hmem'
  exact key _ (List.nodup_range _) (List.mem_range.mpr hc)

/-- Linking root `c` under root `r` lengthens chains by at most one step. -/
theorem link_reaches {ps : List Nat} {c r : Nat} (hne : r ≠ c)
    (hc : c < ps.length) (hrr : ps.getD r r = r) (hcr : ps.getD c c = c) :
    ∀ d x, Reaches ps d x → Reaches (ps.set c r) (d+1) x := by
  have hrP : (ps.set c r).getD r r = r := by
    rw [getD_set_ne _ _ (fun hcc => hne hcc.symm)]
    exact hrr
  intro d
  induction d using Nat.strong_induction_on with
  | _ d ih =>
    intro x hx
    by_cases hroot : ps.getD x x = x
    · by_cases hxc : x = c
      · subst hxc
        refine Or.inr ?_
        rw [getD_set_self _ _ hc]
        exact reaches_mono (show Reaches _ 0 r from hrP) (Nat.zero_le d)
      · have : (ps.set c r).getD x x = x := by
          rw [getD_set_ne _ _ (fun hcc => hxc hcc.symm)]
          exact hroot
        exact Or.inl this
    · have hxc : x ≠ c := by
        intro hcc
        subst hcc
        exact hroot hcr
      obtain ⟨d', rfl⟩ : ∃ d', d = d' + 1 := by
        cases d with
        | zero => exact absurd hx hroot
        | succ d' => exact ⟨d', rfl⟩
      have hx' : Reaches ps d' (ps.getD x x) := by
        cases hx with
        | inl h => exact absurd h hroot
        | inr h => exact h
      refine Or.inr ?_
      rw [getD_set_ne _ _ (fun hcc => hxc hcc.symm)]
      exact ih d' (by omega) _ hx'

/-- Linking root `c` under root `r` redirects exactly the `c`-rooted chains. -/
theorem link_rootAux {ps : List Nat} {c r : Nat} (hne : r ≠ c)
    (hc : c < ps.length) (hrr : ps.getD r r = r) (hcr : ps.getD c c = c) :
    ∀ d x, Reaches ps d x → ∀ f, d + 1 ≤ f →
      rootAux f (ps.set c r) x
        = (if rootAux f ps x = c then r else rootAux f ps x) := by
  have hrP : (ps.set c r).getD r r = r := by
    rw [getD_set_ne _ _ (fun hcc => hne hcc.symm)]
    exact hrr
  intro d
  induction d using Nat.strong_induction_on with
  | _ d ih =>
    intro x hx f hf
    by_cases hroot : ps.getD x x = x
    · rw [rootAux_of_root hroot]
      by_cases hxc : x = c
      · subst hxc
        rw [if_pos rfl]
        obtain ⟨f', rfl⟩ : ∃ f', f = f' + 1 := ⟨f - 1, by omega⟩
        have hPx : (ps.set x r).getD x x = r := getD_set_self _ _ hc
        have hPnr : (ps.set x r).getD x x ≠ x := by
          rw [hPx]; exact hne
        rw [rootAux_step hPnr, hPx, rootAux_of_root hrP]
      · rw [if_neg hxc]
        apply rootAux_of_root
        rw [getD_set_ne _ _ (fun hcc => hxc hcc.symm)]
        exact hroot
    · have hxc : x ≠ c := by
        intro hcc
        subst hcc
        exact hroot hcr
      obtain ⟨d', rfl⟩ : ∃ d', d = d' + 1 := by
        cases d with
        | zero => exact absurd hx hroot
        | succ d' => exact ⟨d', rfl⟩
      have hx' : Reaches ps d' (ps.getD x x) := by
        cases hx with
        | inl h => exact absurd h hroot
        | inr h => exact h
      obtain ⟨f', rfl⟩ : ∃ f', f = f' + 1 := ⟨f - 1, by omega⟩
      have hPval : (ps.set c r).getD x x = ps.getD x x :=
        getD_set_ne _ _ (fun hcc => hxc hcc.symm)
      have hPnr : (ps.set c r).getD x x ≠ x := by
        rw [hPval]; exact hroot
      rw [rootAux_step hPnr, rootAux_step hroot, hPval]
      exact ih d' (by omega) _ hx' f' (by omega)

/-- Linking root `c` under root `r` preserves the union-find invariant. -/
theorem link_valid {ps : List Nat} (hv : Valid ps) {c r : Nat} (hne : r ≠ c)
    (hc : c < ps.length) (hr : r < ps.length)
    (hrr : ps.getD r r = r) (hcr : ps.getD c c = c) :
    Valid (ps.set c r) := by
  have hR1 : 1 ≤ numRoots ps := numRoots_pos hc hcr
  have hRle : numRoots ps ≤ ps.length := numRoots_le
  have hNR : numRoots (ps.set c r) + 1 = numRoots ps := link_numRoots hne hc hcr
  constructor
  · intro b hb
    rw [List.length_set] at hb
    rw [List.length_set]
    by_cases hbc : b = c
    · subst hbc
      rw [getD_set_self _ _ hc]
      exact hr
    · rw [getD_set_ne _ _ (fun hcc => hbc hcc.symm)]
      exact hv.1 b hb
  · intro b hb
    rw [List.length_set] at hb
    rw [List.length_set]
    have hre := link_reaches hne hc hrr hcr _ b (hv.2 b hb)
    apply reaches_mono hre
    omega

/-- Root remapping of `union`'s successful merge. -/
theorem link_rootOf {ps : List Nat} (hv : Valid ps) {c r : Nat} (hne : r ≠ c)
    (hc : c < ps.length) (hrr : ps.getD r r = r) (hcr : ps.getD c c = c) :
    ∀ x, rootOf (ps.set c r) x
      = (if rootOf ps x = c then r else rootOf ps x) := by
  have hR1 : 1 ≤ numRoots ps := numRoots_pos hc hcr
  intro x
  by_cases hx : x < ps.length
  · have hre := hv.2 x hx
    have := link_rootAux hne hc hrr hcr _ x hre ps.length (by
      have hle : numRoots ps ≤ ps.length := numRoots_le
      omega)
    unfold rootOf
    rw [List.length_set]
    exact this
  · have h1 : rootOf (ps.set c r) x = x :=
      rootOf_of_ge (by rw [List.length_set]; omega)
    have h2 : rootOf ps x = x := rootOf_of_ge (by omega)
    rw [h1, h2, if_neg (by omega : ¬ x = c)]

/-- A successful merge moves the child's stored size onto the new root:
the total stored at roots is unchanged. -/
theorem link_rootSum {ps szs : List Nat} {c r : Nat} (hne : r ≠ c)
    (hc : c < ps.length) (hr : r < ps.length)
    (hrr : ps.getD r r = r) (hcr : ps.getD c c = c)
    (hlen : szs.length = ps.length) :
    rootSum (ps.set c r) (szs.set r (szs.getD r 0 + szs.getD c 0))
      = rootSum ps szs := by
  unfold rootSum
  rw [List.length_set]
  apply filterMapSum_link (List.range ps.length) (List.nodup_range _) r c hne
    (List.mem_range.mpr hr) (List.mem_range.mpr hc)
  · exact beq_iff_eq.mpr hrr
  · exact beq_iff_eq.mpr hcr
  · apply beq_iff_eq.mpr
    rw [getD_set_ne _ _ (fun hcc => hne hcc.symm)]
    exact hrr
  · apply beq_eq_false_iff_ne.mpr
    rw [getD_set_self _ _ hc]
    exact hne
  · intro x hxc
    exact beq_congr_of_iff (by rw [getD_set_ne _ _ (fun hcc => hxc hcc.symm)])
  · exact getD_set_self _ _ (by omega)
  · intro x hxr
    exact getD_set_ne _ _ (fun hcc => hxr hcc.symm)

/-- Full specification of `union`: lengths are stable, the invariant and the
root-stored size total are preserved, a successful merge removes exactly one
root, an unsuccessful one changes nothing, root equalities persist, and the
two arguments end up with the same root. -/
theorem union_spec {ps szs : List Nat} (hv : Valid ps) (hlen : szs.length = ps.length)
    {a b : Nat} (ha : a < ps.length) (hb : b < ps.length) :
    (union ps szs a b).2.1.length = ps.length ∧
    (union ps szs a b).2.2.length = szs.length ∧
    Valid (union ps szs a b).2.1 ∧
    rootSum (union ps szs a b).2.1 (union ps szs a b).2.2 = rootSum ps szs ∧
    ((union ps szs a b).1 = true →
      numRoots (union ps szs a b).2.1 + 1 = numRoots ps) ∧
    ((union ps szs a b).1 = false →
      (∀ x, rootOf (union ps szs a b).2.1 x = rootOf ps x) ∧
      numRoots (union ps szs a b).2.1 = numRoots ps ∧
      (union ps szs a b).2.2 = szs) ∧
    (∀ x y, rootOf ps x = rootOf ps y →
      rootOf (union ps szs a b).2.1 x = rootOf (union ps szs a b).2.1 y) ∧
    rootOf (union ps szs a b).2.1 a = rootOf (union ps szs a b).2.1 b := by
  obtain ⟨hfa1, hfaS, hfaV⟩ := find_spec hv ha
  have hb2 : b < (find ps a).2.length := by rw [hfaS.1]; exact hb
  obtain ⟨hfb1, hfbS, hfbV⟩ := find_spec hfaV hb2
  have S12 : SameShape ps (find (find ps a).2 b).2 := sameShape_trans hfaS hfbS
  have hlen2 : (find (find ps a).2 b).2.length = ps.length := S12.1
  have hroots2 : ∀ x, rootOf (find (find ps a).2 b).2 x = rootOf ps x := S12.2.2
  have hRA : (find ps a).1 = rootOf ps a := hfa1
  have hRB : (find (find ps a).2 b).1 = rootOf ps b := by
    rw [hfb1, hfaS.2.2]
  have hRAroot : ps.getD (rootOf ps a) (rootOf ps a) = rootOf ps a := rootOf_isRoot hv ha
  have hRBroot : ps.getD (rootOf ps b) (rootOf ps b) = rootOf ps b := rootOf_isRoot hv hb
  have hRAroot2 : (find (find ps a).2 b).2.getD (rootOf ps a) (rootOf ps a)
      = rootOf ps a := (S12.2.1 _).mpr hRAroot
  have hRBroot2 : (find (find ps a).2 b).2.getD (rootOf ps b) (rootOf ps b)
      = rootOf ps b := (S12.2.1 _).mpr hRBroot
  have hRAlt : rootOf ps a < ps.length := rootOf_lt hv ha
  have hRBlt : rootOf ps b < ps.length := rootOf_lt hv hb
  have hV2 : Valid (find (find ps a).2 b).2 := hfbV
  have hNR2 : numRoots (find (find ps a).2 b).2 = numRoots ps :=
    numRoots_eq_of_sameShape S12
  have hlenS : szs.length = (find (find ps a).2 b).2.length := by
    rw [hlen2]; exact hlen
  simp only [union]
  by_cases hcond : (find ps a).1 = (find (find ps a).2 b).1
  · rw [if_pos hcond]
    refine ⟨hlen2, rfl, hV2, rootSum_congr S12, ?_, ?_, ?_, ?_⟩
    · intro h; exact absurd h (by simp)
    · intro _; exact ⟨hroots2, hNR2, rfl⟩
    · intro x y hxy
      rw [hroots2, hroots2, hxy]
    · rw [hroots2, hroots2, ← hRA, ← hRB, hcond]
  · rw [if_neg hcond]
    have hne' : rootOf ps a ≠ rootOf ps b := by
      rw [← hRA, ← hRB]; exact hcond
    by_cases hsz : szs.getD (find ps a).1 0 < szs.getD (find (find ps a).2 b).1 0
    · -- the root of `a` is linked under the root of `b`
      rw [if_pos hsz]
      rw [hRA, hRB] at *
      have hcA : rootOf ps a < (find (find ps a).2 b).2.length := by
        rw [hlen2]; exact hRAlt
      have hrB : rootOf ps b < (find (find ps a).2 b).2.length := by
        rw [hlen2]; exact hRBlt
      have hneRB : rootOf ps b ≠ rootOf ps a := fun h => hne' h.symm
      have hmap := link_rootOf hV2 hneRB hcA hRBroot2 hRAroot2
      refine ⟨?_, ?_, ?_, ?_, ?_, ?_, ?_, ?_⟩
      · rw [List.length_set, hlen2]
      · rw [List.length_set]
      · exact link_valid hV2 hneRB hcA hrB hRBroot2 hRAroot2
      · rw [link_rootSum hneRB hcA hrB hRBroot2 hRAroot2 hlenS]
        exact rootSum_congr S12
      · intro _
        rw [link_numRoots hneRB hcA hRAroot2, hNR2]
      · intro h; exact absurd h (by simp)
      · intro x y hxy
        rw [hmap, hmap, hroots2, hroots2, hxy]
      · rw [hmap, hmap, hroots2, hroots2]
        rw [if_pos rfl, if_neg hneRB]
    · rw [if_neg hsz]
      rw [hRA, hRB] at *
      have hcB : rootOf ps b < (find (find ps a).2 b).2.length := by
        rw [hlen2]; exact hRBlt
      have hrA : rootOf ps a < (find (find ps a).2 b).2.length := by
        rw [hlen2]; exact hRAlt
      have hmap := link_rootOf hV2 hne' hcB hRAroot2 hRBroot2
      refine ⟨?_, ?_, ?_, ?_, ?_, ?_, ?_, ?_⟩
      · rw [List.length_set, hlen2]
      · rw [List.length_set]
      · exact link_valid hV2 hne' hcB hrA hRAroot2 hRBroot2
      · rw [link_rootSum hne' hcB hrA hRAroot2 hRBroot2 hlenS]
        exact rootSum_congr S12
      · intro _
        rw [link_numRoots hne' hcB hRBroot2, hNR2]
      · intro h; exact absurd h (by simp)
      · intro x y hxy
        rw [hmap, hmap, hroots2, hroots2, hxy]
      · rw [hmap, hmap, hroots2, hroots2]
        rw [if_neg hne', if_pos rfl]

end UF

namespace Day8

/-- A parsed junction box coordinate of `src/Day8/main.py`. -/
abbrev Pt := ℤ × ℤ × ℤ

/-- Squared Euclidean distance, as computed inside `_sorted_edges`. -/
def distSq (p q : Pt) : ℤ :=
  (p.1 - q.1) ^ 2 + (p.2.1 - q.2.1) ^ 2 + (p.2.2 - q.2.2) ^ 2

/-- Edge generation of `_sorted_edges`: one `(dist_sq, i, j)` triple for every
pair `i < j` in input order. -/
def rawEdges (pts : List Pt) : List (ℤ × Nat × Nat) :=
  (List.range pts.length).flatMap (fun i =>
    ((List.range pts.length).drop (i + 1)).map (fun j =>
      (distSq (pts.getD i (0, 0, 0)) (pts.getD j (0, 0, 0)), i, j)))

/-- Models `_sorted_edges`: all pairs, stably sorted ascending by squared
distance (`edges.sort(key=lambda e: e[0])`). -/
def sortedEdges (pts : List Pt) : List (ℤ × Nat × Nat) :=
  List.insertionSort (fun e1 e2 => e1.1 ≤ e2.1) (rawEdges pts)

/-- The loop `for _, a, b in edges[:k]: union(a, b)` of
`_component_sizes_after_k_edges`. -/
def applyEdges : List (ℤ × Nat × Nat) → List Nat → List Nat → List Nat × List Nat
  | [], ps, szs => (ps, szs)
  | e :: rest, ps, szs =>
    applyEdges rest (UF.union ps szs e.2.1 e.2.2).2.1 (UF.union ps szs e.2.1 e.2.2).2.2

/-- The collection loop of `_component_sizes_after_k_edges`:
`for idx in range(n): root = find(idx); if root == idx: append(sizes[root])`.
The `find` calls keep compressing paths, so the parent array is threaded. -/
def collectSizes : List Nat → List Nat → List Nat → List Nat
  | [], _, _ => []
  | idx :: rest, ps, szs =>
    if (UF.find ps idx).1 = idx then
      szs.getD (UF.find ps idx).1 0 :: collectSizes rest (UF.find ps idx).2 szs
    else
      collectSizes rest (UF.find ps idx).2 szs

/-- Models `_component_sizes_after_k_edges(points, k)`: connect the `k`
closest pairs and return the component sizes sorted descending
(`comp_sizes.sort(reverse=True)`). -/
def componentSizesAfterKEdges (pts : List Pt) (k : Nat) : List Nat :=
  List.insertionSort (fun a b => a ≥ b)
    (collectSizes (List.range pts.length)
      (applyEdges ((sortedEdges pts).take k) (List.range pts.length)
        (List.replicate pts.length 1)).1
      (applyEdges ((sortedEdges pts).take k) (List.range pts.length)
        (List.replicate pts.length 1)).2)

/-- The edge loop of `_final_connection_product`.  `none` models falling
through to `raise ValueError("Graph did not become fully connected")`. -/
def finalLoop (pts : List Pt) :
    List (ℤ × Nat × Nat) → List Nat → List Nat → Nat → Option ℤ
  | [], _, _, _ => none
  | e :: rest, ps, szs, comps =>
    if (UF.union ps szs e.2.1 e.2.2).1 then
      if comps - 1 = 1 then
        some ((pts.getD e.2.1 (0, 0, 0)).1 * (pts.getD e.2.2 (0, 0, 0)).1)
      else
        finalLoop pts rest (UF.union ps szs e.2.1 e.2.2).2.1
          (UF.union ps szs e.2.1 e.2.2).2.2 (comps - 1)
    else
      finalLoop pts rest (UF.union ps szs e.2.1 e.2.2).2.1
        (UF.union ps szs e.2.1 e.2.2).2.2 comps

/-- Models `_final_connection_product(points)`. -/
def finalConnectionProduct (pts : List Pt) : Option ℤ :=
  finalLoop pts (sortedEdges pts) (List.range pts.length)
    (List.replicate pts.length 1) pts.length

theorem range_getD (n a : Nat) : (List.range n).getD a a = a := by
  by_cases h : a < n
  · rw [List.getD_eq_getElem?_getD, List.getElem?_range h]
    rfl
  · rw [List.getD_eq_getElem?_getD,
      List.getElem?_eq_none (by rw [List.length_range]; omega)]
    rfl

theorem numRoots_range (n : Nat) : UF.numRoots (List.range n) = n := by
  unfold UF.numRoots
  rw [List.length_range,
    List.filter_eq_self.mpr (fun a _ => beq_iff_eq.mpr (range_getD n a)),
    List.length_range]

theorem valid_range (n : Nat) : UF.Valid (List.range n) := by
  constructor
  · intro a ha
    rw [List.length_range] at ha
    rw [range_getD, List.length_range]
    exact ha
  · intro a ha
    exact UF.reaches_mono (show UF.Reaches (List.range n) 0 a from range_getD n a)
      (Nat.zero_le _)

theorem rootSum_init (n : Nat) :
    UF.rootSum (List.range n) (List.replicate n 1) = n := by
  unfold UF.rootSum
  rw [List.length_range,
    List.filter_eq_self.mpr (fun a _ => beq_iff_eq.mpr (range_getD n a))]
  have : (List.range n).map (fun a => (List.replicate n (1 : Nat)).getD a 0)
      = (List.range n).map (fun _ => (1 : Nat)) := by
    apply List.map_congr_left
    intro a ha
    rw [List.getD_eq_getElem?_getD, List.getElem?_replicate,
      if_pos (List.mem_range.mp ha)]
    rfl
  have hsum : ∀ l : List Nat, (l.map (fun _ => (1 : Nat))).sum = l.length := by
    intro l
    induction l with
    | nil => rfl
    | cons x t ih => simp [ih]; omega
  rw [this, hsum, List.length_range]

/-- Every generated edge mentions only in-range point indices. -/
theorem sortedEdges_mem_lt {pts : List Pt} {e : ℤ × Nat × Nat}
    (he : e ∈ sortedEdges pts) : e.2.1 < pts.length ∧ e.2.2 < pts.length := by
  unfold sortedEdges at he
  have hraw : e ∈ rawEdges pts :=
    (List.perm_insertionSort (fun e1 e2 => e1.1 ≤ e2.1) (rawEdges pts)).mem_iff.mp he
  obtain ⟨i, hi, hmem⟩ := List.mem_flatMap.mp hraw
  obtain ⟨j, hj, rfl⟩ := List.mem_map.mp hmem
  have hjr : j ∈ List.range pts.length := List.drop_subset _ _ hj
  exact ⟨List.mem_range.mp hi, List.mem_range.mp hjr⟩

/-- Every pair `i < j` of in-range indices appears among the sorted edges. -/
theorem sortedEdges_complete {pts : List Pt} {i j : Nat}
    (hij : i < j) (hj : j < pts.length) :
    (distSq (pts.getD i (0, 0, 0)) (pts.getD j (0, 0, 0)), i, j) ∈ sortedEdges pts := by
  unfold sortedEdges
  apply (List.perm_insertionSort (fun e1 e2 => e1.1 ≤ e2.1) (rawEdges pts)).mem_iff.mpr
  apply List.mem_flatMap.mpr
  refine ⟨i, List.mem_range.mpr (by omega), ?_⟩
  apply List.mem_map.mpr
  refine ⟨j, ?_, rfl⟩
  apply List.mem_drop_iff_getElem.mpr
  refine ⟨j - (i + 1), by rw [List.length_range]; omega, ?_⟩
  rw [List.getElem_range]
  omega

/-- Invariant carried through the edge loops of Day 8. -/
def EngineInv (n : Nat) (ps szs : List Nat) : Prop :=
  UF.Valid ps ∧ ps.length = n ∧ szs.length = n ∧ UF.rootSum ps szs = n

theorem engineInv_init (n : Nat) : EngineInv n (List.range n) (List.replicate n 1) :=
  ⟨valid_range n, List.length_range n, List.length_replicate n 1, rootSum_init n⟩

/-- Applying any list of in-range edges preserves the engine invariant,
preserves root equalities, and connects the endpoints of every applied edge. -/
theorem applyEdges_spec {n : Nat} :
    ∀ (E : List (ℤ × Nat × Nat)) (ps szs : List Nat),
      EngineInv n ps szs → (∀ e ∈ E, e.2.1 < n ∧ e.2.2 < n) →
      EngineInv n (applyEdges E ps szs).1 (applyEdges E ps szs).2 ∧
      (∀ x y, UF.rootOf ps x = UF.rootOf ps y →
        UF.rootOf (applyEdges E ps szs).1 x = UF.rootOf (applyEdges E ps szs).1 y) ∧
      (∀ e ∈ E, UF.rootOf (applyEdges E ps szs).1 e.2.1
        = UF.rootOf (applyEdges E ps szs).1 e.2.2) := by
  intro E
  induction E with
  | nil =>
    intro ps szs hinv _
    refine ⟨hinv, fun x y h => h, ?_⟩
    intro e he
    cases he
  | cons e rest ih =>
    intro ps szs hinv hE
    have ha : e.2.1 < ps.length := by rw [hinv.2.1]; exact (hE e (List.mem_cons_self e rest)).1
    have hb : e.2.2 < ps.length := by rw [hinv.2.1]; exact (hE e (List.mem_cons_self e rest)).2
    have hu := UF.union_spec hinv.1
      (show szs.length = ps.length by rw [hinv.2.2.1, hinv.2.1]) ha hb
    have hinv' : EngineInv n (UF.union ps szs e.2.1 e.2.2).2.1
        (UF.union ps szs e.2.1 e.2.2).2.2 := by
      refine ⟨hu.2.2.1, ?_, ?_, ?_⟩
      · rw [hu.1, hinv.2.1]
      · rw [hu.2.1, hinv.2.2.1]
      · rw [hu.2.2.2.1, hinv.2.2.2]
    have hrest : ∀ e' ∈ rest, e'.2.1 < n ∧ e'.2.2 < n :=
      fun e' he' => hE e' (List.mem_cons_of_mem e he')
    obtain ⟨f1, f2, f3⟩ := ih _ _ hinv' hrest
    have hstep : applyEdges (e :: rest) ps szs
        = applyEdges rest (UF.union ps szs e.2.1 e.2.2).2.1
            (UF.union ps szs e.2.1 e.2.2).2.2 := rfl
    rw [hstep]
    refine ⟨f1, ?_, ?_⟩
    · intro x y hxy
      exact f2 x y (hu.2.2.2.2.2.2.1 x y hxy)
    · intro e' he'
      cases he' with
      | head => exact f2 _ _ hu.2.2.2.2.2.2.2
      | tail _ h => exact f3 e' h

/-- The collection loop reads off the stored sizes of the roots, in index
order; the interleaved path compression does not disturb it. -/
theorem collectSizes_spec :
    ∀ (l : List Nat) (ps szs : List Nat), UF.Valid ps → (∀ x ∈ l, x < ps.length) →
      collectSizes l ps szs
        = (l.filter (fun x => ps.getD x x == x)).map (fun x => szs.getD x 0) := by
  intro l
  induction l with
  | nil => intro ps szs _ _; rfl
  | cons idx rest ih =>
    intro ps szs hv hl
    have hidx : idx < ps.length := hl idx (List.mem_cons_self idx rest)
    obtain ⟨h1, hS, hV'⟩ := UF.find_spec hv hidx
    have hrest : ∀ x ∈ rest, x < (UF.find ps idx).2.length := by
      intro x hx
      rw [hS.1]
      exact hl x (List.mem_cons_of_mem idx hx)
    have hrec : collectSizes rest (UF.find ps idx).2 szs
        = (rest.filter (fun x => ps.getD x x == x)).map (fun x => szs.getD x 0) := by
      rw [ih _ szs hV' hrest]
      congr 1
      exact List.filter_congr (fun x _ => UF.beq_congr_of_iff (hS.2.1 x))
    have hcond : ((UF.find ps idx).1 = idx) ↔ (ps.getD idx idx = idx) := by
      rw [h1]
      exact UF.rootOf_eq_self_iff hv hidx
    by_cases hroot : ps.getD idx idx = idx
    · have hc : (UF.find ps idx).1 = idx := hcond.mpr hroot
      rw [show collectSizes (idx :: rest) ps szs
          = if (UF.find ps idx).1 = idx then
              szs.getD (UF.find ps idx).1 0 :: collectSizes rest (UF.find ps idx).2 szs
            else collectSizes rest (UF.find ps idx).2 szs from rfl]
      rw [if_pos hc, hc, hrec,
        UF.filter_cons_pos (fun x => ps.getD x x == x) idx rest (beq_iff_eq.mpr hroot),
        List.map_cons]
    · have hc : ¬ (UF.find ps idx).1 = idx := fun h => hroot (hcond.mp h)
      rw [show collectSizes (idx :: rest) ps szs
          = if (UF.find ps idx).1 = idx then
              szs.getD (UF.find ps idx).1 0 :: collectSizes rest (UF.find ps idx).2 szs
            else collectSizes rest (UF.find ps idx).2 szs from rfl]
      rw [if_neg hc, hrec,
        UF.filter_cons_neg (fun x => ps.getD x x == x) idx rest
          (beq_eq_false_iff_ne.mpr hroot)]

theorem collectSizes_sum {n : Nat} {ps szs : List Nat} (hinv : EngineInv n ps szs) :
    (collectSizes (List.range n) ps szs).sum = n := by
  rw [collectSizes_spec (List.range n) ps szs hinv.1
    (fun x hx => by rw [hinv.2.1]; exact List.mem_range.mp hx)]
  have := hinv.2.2.2
  unfold UF.rootSum at this
  rw [hinv.2.1] at this
  exact this

/-- When all in-range elements share one root, the root census is a single
root: the root of element `0`. -/
theorem rootsFilter_of_connected {ps : List Nat} (hv : UF.Valid ps) (hn : 0 < ps.length)
    (hall : ∀ i j, i < ps.length → j < ps.length → UF.rootOf ps i = UF.rootOf ps j) :
    (List.range ps.length).filter (fun a => ps.getD a a == a) = [UF.rootOf ps 0] := by
  have hr0lt : UF.rootOf ps 0 < ps.length := UF.rootOf_lt hv hn
  have hr0root : ps.getD (UF.rootOf ps 0) (UF.rootOf ps 0) = UF.rootOf ps 0 :=
    UF.rootOf_isRoot hv hn
  have hiff : ∀ x, x < ps.length → ((ps.getD x x = x) ↔ (x = UF.rootOf ps 0)) := by
    intro x hx
    constructor
    · intro h
      have h1 : UF.rootOf ps x = x := UF.rootOf_of_root h
      rw [← h1]
      exact hall x 0 hx hn
    · intro h
      rw [h]
      exact hr0root
  have hcongr : (List.range ps.length).filter (fun a => ps.getD a a == a)
      = (List.range ps.length).filter (fun a => decide (a = UF.rootOf ps 0)) := by
    apply List.filter_congr
    intro x hx
    have hx' : x < ps.length := List.mem_range.mp hx
    by_cases h : x = UF.rootOf ps 0
    · rw [beq_iff_eq.mpr ((hiff x hx').mpr h), decide_eq_true h]
    · rw [beq_eq_false_iff_ne.mpr (fun hc => h ((hiff x hx').mp hc)),
        decide_eq_false h]
  rw [hcongr, List.filter_eq,
    List.count_eq_one_of_mem (List.nodup_range _) (List.mem_range.mpr hr0lt)]
  rfl

theorem numRoots_of_connected {ps : List Nat} (hv : UF.Valid ps) (hn : 0 < ps.length)
    (hall : ∀ i j, i < ps.length → j < ps.length → UF.rootOf ps i = UF.rootOf ps j) :
    UF.numRoots ps = 1 := by
  unfold UF.numRoots
  rw [rootsFilter_of_connected hv hn hall]
  rfl

/-- `_sorted_edges` produces exactly `n*(n-1)/2` edges. -/
theorem sortedEdges_length (pts : List Pt) :
    (sortedEdges pts).length = pts.length * (pts.length - 1) / 2 := by
  unfold sortedEdges
  rw [(List.perm_insertionSort (fun e1 e2 => e1.1 ≤ e2.1) (rawEdges pts)).length_eq]
  unfold rawEdges
  rw [List.length_flatMap]
  have hmap : (List.map
      (List.length ∘ fun i => ((List.range pts.length).drop (i + 1)).map (fun j =>
        (distSq (pts.getD i (0, 0, 0)) (pts.getD j (0, 0, 0)), i, j)))
      (List.range pts.length))
      = List.map (fun i => pts.length - 1 - i) (List.range pts.length) := by
    apply List.map_congr_left
    intro i _
    show (((List.range pts.length).drop (i + 1)).map _).length = pts.length - 1 - i
    rw [List.length_map, List.length_drop, List.length_range]
    omega
  rw [hmap]
  have hbridge : (List.map (fun i => pts.length - 1 - i) (List.range pts.length)).sum
      = Finset.sum (Finset.range pts.length) (fun i => pts.length - 1 - i) := rfl
  rw [hbridge, Finset.sum_range_reflect (fun i => i) pts.length,
    Finset.sum_range_id]

/-- With every pair applied, the clustering engine reports one component of
size `n`. -/
theorem componentSizes_all_edges (pts : List Pt) (k : Nat)
    (h1 : 1 ≤ pts.length) (hk : pts.length * (pts.length - 1) / 2 ≤ k) :
    componentSizesAfterKEdges pts k = [pts.length] := by
  have htake : (sortedEdges pts).take k = sortedEdges pts :=
    List.take_of_length_le (by rw [sortedEdges_length]; exact hk)
  unfold componentSizesAfterKEdges
  rw [htake]
  have hE : ∀ e ∈ sortedEdges pts, e.2.1 < pts.length ∧ e.2.2 < pts.length :=
    fun e he => sortedEdges_mem_lt he
  obtain ⟨hinvF, hpres, hconn⟩ :=
    applyEdges_spec (sortedEdges pts) (List.range pts.length)
      (List.replicate pts.length 1) (engineInv_init pts.length) hE
  have hall : ∀ i j, i < pts.length → j < pts.length →
      UF.rootOf (applyEdges (sortedEdges pts) (List.range pts.length)
        (List.replicate pts.length 1)).1 i
      = UF.rootOf (applyEdges (sortedEdges pts) (List.range pts.length)
        (List.replicate pts.length 1)).1 j := by
    have key : ∀ i j, i < j → j < pts.length →
        UF.rootOf (applyEdges (sortedEdges pts) (List.range pts.length)
          (List.replicate pts.length 1)).1 i
        = UF.rootOf (applyEdges (sortedEdges pts) (List.range pts.length)
          (List.replicate pts.length 1)).1 j := by
      intro i j hij hj
      exact hconn _ (sortedEdges_complete hij hj)
    intro i j hi hj
    rcases Nat.lt_trichotomy i j with h | h | h
    · exact key i j h hj
    · rw [h]
    · exact (key j i h hi).symm
  have hFlen : (applyEdges (sortedEdges pts) (List.range pts.length)
      (List.replicate pts.length 1)).1.length = pts.length := hinvF.2.1
  have hall' : ∀ i j,
      i < (applyEdges (sortedEdges pts) (List.range pts.length)
        (List.replicate pts.length 1)).1.length →
      j < (applyEdges (sortedEdges pts) (List.range pts.length)
        (List.replicate pts.length 1)).1.length →
      UF.rootOf (applyEdges (sortedEdges pts) (List.range pts.length)
        (List.replicate pts.length 1)).1 i
      = UF.rootOf (applyEdges (sortedEdges pts) (List.range pts.length)
        (List.replicate pts.length 1)).1 j := by
    intro i j hi hj
    rw [hFlen] at hi hj
    exact hall i j hi hj
  have hn0 : 0 < (applyEdges (sortedEdges pts) (List.range pts.length)
      (List.replicate pts.length 1)).1.length := by
    rw [hFlen]; exact h1
  have hfilter := rootsFilter_of_connected hinvF.1 hn0 hall'
  rw [hFlen] at hfilter
  rw [collectSizes_spec _ _ _ hinvF.1 (fun x hx => by
    rw [hFlen]; exact List.mem_range.mp hx)]
  rw [hfilter]
  have hsum := hinvF.2.2.2
  unfold UF.rootSum at hsum
  rw [hFlen, hfilter] at hsum
  simp only [List.map_cons, List.map_nil, List.sum_cons, List.sum_nil,
    Nat.add_zero] at hsum
  rw [List.map_cons, List.map_nil, hsum]
  rfl

theorem numRoots_pos_of_valid {ps : List Nat} (hv : UF.Valid ps) (hn : 0 < ps.length) :
    1 ≤ UF.numRoots ps :=
  UF.numRoots_pos (UF.rootOf_lt hv hn) (UF.rootOf_isRoot hv hn)

/-- If the final-connection loop falls through without an early return, the
forest it leaves behind still has at least two components. -/
theorem finalLoop_none {n : Nat} (pts : List Pt) :
    ∀ (E : List (ℤ × Nat × Nat)) (ps szs : List Nat) (comps : Nat),
      EngineInv n ps szs → (∀ e ∈ E, e.2.1 < n ∧ e.2.2 < n) →
      comps = UF.numRoots ps → 2 ≤ comps → 1 ≤ n →
      finalLoop pts E ps szs comps = none →
      2 ≤ UF.numRoots (applyEdges E ps szs).1 := by
  intro E
  induction E with
  | nil =>
    intro ps szs comps hinv _ hcomp h2 _ _
    show 2 ≤ UF.numRoots ps
    omega
  | cons e rest ih =>
    intro ps szs comps hinv hE hcomp h2 hn hnone
    have ha : e.2.1 < ps.length := by rw [hinv.2.1]; exact (hE e (List.mem_cons_self e rest)).1
    have hb : e.2.2 < ps.length := by rw [hinv.2.1]; exact (hE e (List.mem_cons_self e rest)).2
    have hu := UF.union_spec hinv.1
      (show szs.length = ps.length by rw [hinv.2.2.1, hinv.2.1]) ha hb
    have hinv' : EngineInv n (UF.union ps szs e.2.1 e.2.2).2.1
        (UF.union ps szs e.2.1 e.2.2).2.2 := by
      refine ⟨hu.2.2.1, ?_, ?_, ?_⟩
      · rw [hu.1, hinv.2.1]
      · rw [hu.2.1, hinv.2.2.1]
      · rw [hu.2.2.2.1, hinv.2.2.2]
    have hrest : ∀ e' ∈ rest, e'.2.1 < n ∧ e'.2.2 < n :=
      fun e' he' => hE e' (List.mem_cons_of_mem e he')
    have hunfold : finalLoop pts (e :: rest) ps szs comps
        = if (UF.union ps szs e.2.1 e.2.2).1 then
            if comps - 1 = 1 then
              some ((pts.getD e.2.1 (0, 0, 0)).1 * (pts.getD e.2.2 (0, 0, 0)).1)
            else
              finalLoop pts rest (UF.union ps szs e.2.1 e.2.2).2.1
                (UF.union ps szs e.2.1 e.2.2).2.2 (comps - 1)
          else
            finalLoop pts rest (UF.union ps szs e.2.1 e.2.2).2.1
              (UF.union ps szs e.2.1 e.2.2).2.2 comps := rfl
    have hstep : applyEdges (e :: rest) ps szs
        = applyEdges rest (UF.union ps szs e.2.1 e.2.2).2.1
            (UF.union ps szs e.2.1 e.2.2).2.2 := rfl
    rw [hstep]
    by_cases hm : (UF.union ps szs e.2.1 e.2.2).1 = true
    · have hcomp' : comps - 1 = UF.numRoots (UF.union ps szs e.2.1 e.2.2).2.1 := by
        have := hu.2.2.2.2.1 hm
        omega
      have hpos : 1 ≤ UF.numRoots (UF.union ps szs e.2.1 e.2.2).2.1 := by
        apply numRoots_pos_of_valid hinv'.1
        rw [hinv'.2.1]
        omega
      rw [hunfold, if_pos hm] at hnone
      by_cases hstop : comps - 1 = 1
      · rw [if_pos hstop] at hnone
        cases hnone
      · rw [if_neg hstop] at hnone
        exact ih _ _ _ hinv' hrest hcomp' (by omega) hn hnone
    · have hm' : (UF.union ps szs e.2.1 e.2.2).1 = false := by
        cases h : (UF.union ps szs e.2.1 e.2.2).1 with
        | true => exact absurd h hm
        | false => rfl
      have hcomp' : comps = UF.numRoots (UF.union ps szs e.2.1 e.2.2).2.1 := by
        rw [(hu.2.2.2.2.2.1 hm').2.1, hcomp]
      rw [hunfold, if_neg hm] at hnone
      exact ih _ _ _ hinv' hrest hcomp' h2 hn hnone

/-- Applying every edge of the complete graph fully connects the forest. -/
theorem final_numRoots_one (pts : List Pt) (h1 : 1 ≤ pts.length) :
    UF.numRoots (applyEdges (sortedEdges pts) (List.range pts.length)
      (List.replicate pts.length 1)).1 = 1 := by
  have hE : ∀ e ∈ sortedEdges pts, e.2.1 < pts.length ∧ e.2.2 < pts.length :=
    fun e he => sortedEdges_mem_lt he
  obtain ⟨hinvF, hpres, hconn⟩ :=
    applyEdges_spec (sortedEdges pts) (List.range pts.length)
      (List.replicate pts.length 1) (engineInv_init pts.length) hE
  have hFlen : (applyEdges (sortedEdges pts) (List.range pts.length)
      (List.replicate pts.length 1)).1.length = pts.length := hinvF.2.1
  apply numRoots_of_connected hinvF.1 (by rw [hFlen]; exact h1)
  intro i j hi hj
  rw [hFlen] at hi hj
  have key : ∀ i j, i < j → j < pts.length →
      UF.rootOf (applyEdges (sortedEdges pts) (List.range pts.length)
        (List.replicate pts.length 1)).1 i
      = UF.rootOf (applyEdges (sortedEdges pts) (List.range pts.length)
        (List.replicate pts.length 1)).1 j :=
    fun i j hij hj => hconn _ (sortedEdges_complete hij hj)
  rcases Nat.lt_trichotomy i j with h | h | h
  · exact key i j h hj
  · rw [h]
  · exact (key j i h hi).symm

/-- For two or more points the final-connection loop always returns inside
the loop: the fall-through error is unreachable. -/
theorem finalConnectionProduct_isSome (pts : List Pt) (h2 : 2 ≤ pts.length) :
    ∃ v, finalConnectionProduct pts = some v := by
  cases h : finalConnectionProduct pts with
  | some v => exact ⟨v, rfl⟩
  | none =>
    exfalso
    unfold finalConnectionProduct at h
    have := finalLoop_none pts (sortedEdges pts) (List.range pts.length)
      (List.replicate pts.length 1) pts.length (engineInv_init pts.length)
      (fun e he => sortedEdges_mem_lt he)
      (by rw [numRoots_range]) h2 (by omega) h
    rw [final_numRoots_one pts (by omega)] at this
    omega

end Day8

/-- Python whitespace, as recognised by `str.strip()` and `int()`. -/
def pyIsSpace (c : Char) : Bool :=
  c = ' ' || c = '\t' || c = '\n' || c = '\r' || c = '\x0b' || c = '\x0c'

/-- Models Python `str.strip()` on a line of characters. -/
def pyStrip (l : List Char) : List Char :=
  ((l.dropWhile pyIsSpace).reverse.dropWhile pyIsSpace).reverse

def digitVal (c : Char) : Option Nat :=
  if '0' ≤ c ∧ c ≤ '9' then some (c.toNat - '0'.toNat) else none

def digitsValAux : Nat → List Char → Option Nat
  | acc, [] => some acc
  | acc, c :: rest =>
    match digitVal c with
    | some d => digitsValAux (acc * 10 + d) rest
    | none => none

def pyParseNat (l : List Char) : Option Nat :=
  match l with
  | [] => none
  | _ => digitsValAux 0 l

/-- Models Python `int(s)`: optional surrounding whitespace, optional sign,
ASCII digits.  (Underscore grouping and non-ASCII digits do not occur in the
puzzle inputs and are not modelled.) -/
def pyParseInt (l : List Char) : Option ℤ :=
  match pyStrip l with
  | '-' :: rest => (pyParseNat rest).map (fun n => -(n : ℤ))
  | '+' :: rest => (pyParseNat rest).map (fun n => (n : ℤ))
  | t => (pyParseNat t).map (fun n => (n : ℤ))

namespace Day8

/-- One line of `_parse_points`: `x, y, z = map(int, line.split(","))`;
`none` models the `ValueError` of a wrong field count or a bad integer. -/
def parseLine (s : List Char) : Option Pt :=
  match (s.splitOn ',').map pyParseInt with
  | [some x, some y, some z] => some (x, y, z)
  | _ => none

/-- The line loop of `_parse_points` (blank lines skipped). -/
def parsePointsAux : List (List Char) → Option (List Pt)
  | [] => some []
  | line :: rest =>
    if (pyStrip line).isEmpty then parsePointsAux rest
    else
      match parseLine (pyStrip line), parsePointsAux rest with
      | some p, some ps => some (p :: ps)
      | _, _ => none

/-- Models `_parse_points`: `Except.error` models `raise ValueError`. -/
def parsePoints (lines : List (List Char)) : Except String (List Pt) :=
  match parsePointsAux lines with
  | none => .error "invalid coordinate line"
  | some [] => .error "No junction box coordinates found in the input."
  | some pts => .ok pts

/-- Models `solve_part_one` of Day 8; `connections` is the keyword parameter
(default 1000 at the call sites). -/
def solvePartOne (instructions : List (List Char)) (connections : Nat) :
    Except String Nat :=
  if instructions.isEmpty then .ok 0
  else
    match parsePoints instructions with
    | .error e => .error e
    | .ok points =>
      .ok (((componentSizesAfterKEdges points connections).take 3).foldl
        (fun r s => r * s) 1)

/-- Models `solve_part_two` of Day 8. -/
def solvePartTwo (instructions : List (List Char)) : Except String ℤ :=
  if instructions.isEmpty then .ok 0
  else
    match parsePoints instructions with
    | .error e => .error e
    | .ok points =>
      match finalConnectionProduct points with
      | some v => .ok v
      | none => .error "Graph did not become fully connected"

end Day8

namespace Day9

/-- Line predicate of both Day 9 parsers:
`if not stripped or stripped.startswith("#"): continue`. -/
def skipLine (line : List Char) : Bool :=
  (pyStrip line).isEmpty || (pyStrip line).head? == some '#'

/-- One coordinate line: `x_str, y_str = stripped.split(",")` then `int`. -/
def parseLine (s : List Char) : Option (ℤ × ℤ) :=
  match s.splitOn ',' with
  | [xe, ye] =>
    match pyParseInt xe, pyParseInt ye with
    | some x, some y => some (x, y)
    | _, _ => none
  | _ => none

/-- The parsing loop shared by `solve_part_one` and `solve_part_two` of
Day 9; a bad line raises `ValueError(f"Invalid coordinate line: {line!r}")`. -/
def parsePoints : List (List Char) → Except String (List (ℤ × ℤ))
  | [] => .ok []
  | line :: rest =>
    if skipLine line then parsePoints rest
    else
      match parseLine (pyStrip line) with
      | some p =>
        match parsePoints rest with
        | .ok ps => .ok (p :: ps)
        | .error e => .error e
      | none => .error (String.append "Invalid coordinate line: " (String.mk line))

/-- The `i < j` index pairs visited by the nested pair loops, in order. -/
def pairList (n : Nat) : List (Nat × Nat) :=
  (List.range n).flatMap (fun i => ((List.range n).drop (i + 1)).map (fun j => (i, j)))

/-- The pair loop of Day 9 `solve_part_one`:
`area = (abs dx + 1) * (abs dy + 1); if area > max_area: max_area = area`. -/
def maxPairArea (points : List (ℤ × ℤ)) : List (Nat × Nat) → ℤ → ℤ
  | [], acc => acc
  | ij :: rest, acc =>
    if acc < (abs ((points.getD ij.1 (0, 0)).1 - (points.getD ij.2 (0, 0)).1) + 1)
        * (abs ((points.getD ij.1 (0, 0)).2 - (points.getD ij.2 (0, 0)).2) + 1) then
      maxPairArea points rest
        ((abs ((points.getD ij.1 (0, 0)).1 - (points.getD ij.2 (0, 0)).1) + 1)
          * (abs ((points.getD ij.1 (0, 0)).2 - (points.getD ij.2 (0, 0)).2) + 1))
    else
      maxPairArea points rest acc

/-- Models `solve_part_one` of Day 9. -/
def solvePartOne (instructions : List (List Char)) : Except String ℤ :=
  match parsePoints instructions with
  | .error e => .error e
  | .ok points =>
    if points.length < 2 then .ok 0
    else .ok (maxPairArea points (pairList points.length) 0)

/-- Strictly increasing insertion; `sortedSet` models Python
`sorted(set(...))`. -/
def insertUnique (v : ℤ) : List ℤ → List ℤ
  | [] => [v]
  | x :: xs =>
    if v < x then v :: x :: xs
    else if v = x then x :: xs
    else x :: insertUnique v xs

def sortedSet (l : List ℤ) : List ℤ := l.foldr insertUnique []

def minList : List ℤ → ℤ
  | [] => 0
  | x :: xs => xs.foldl min x

def maxList : List ℤ → ℤ
  | [] => 0
  | x :: xs => xs.foldl max x

/-- The compressed x-coordinates:
`xs = sorted({min_x - 1, max_x + 2} ∪ {x, x + 1 for points})`. -/
def compressXs (points : List (ℤ × ℤ)) : List ℤ :=
  sortedSet ([minList (points.map Prod.fst) - 1, maxList (points.map Prod.fst) + 2]
    ++ points.flatMap (fun p => [p.1, p.1 + 1]))

/-- The compressed y-coordinates. -/
def compressYs (points : List (ℤ × ℤ)) : List ℤ :=
  sortedSet ([minList (points.map Prod.snd) - 1, maxList (points.map Prod.snd) + 2]
    ++ points.flatMap (fun p => [p.2, p.2 + 1]))

/-- Models the `x_index` / `y_index` dictionary lookup: the index of `v` in
the duplicate-free sorted list. -/
def idxOf : List ℤ → ℤ → Nat
  | [], _ => 0
  | x :: xs, v => if x = v then 0 else idxOf xs v + 1

/-- Models `widths` / `heights`: consecutive gaps of the compressed axis. -/
def gaps (xs : List ℤ) : List ℤ :=
  (List.range (xs.length - 1)).map (fun i => xs.getD (i + 1) 0 - xs.getD i 0)

/-- Point update of a boolean grid (`allowed[x][y] = True`). -/
def setTrue (g : Nat → Nat → Bool) (x y : Nat) : Nat → Nat → Bool :=
  fun x0 y0 => if x0 = x ∧ y0 = y then true else g x0 y0

/-- `for iy in range(a, b): allowed[ix][iy] = True`. -/
def markCol (ix a b : Nat) (g : Nat → Nat → Bool) : Nat → Nat → Bool :=
  (List.range' a (b - a)).foldl (fun h iy => setTrue h ix iy) g

/-- `for ix in range(a, b): allowed[ix][iy] = True`. -/
def markRow (iy a b : Nat) (g : Nat → Nat → Bool) : Nat → Nat → Bool :=
  (List.range' a (b - a)).foldl (fun h ix => setTrue h ix iy) g

/-- The boundary-marking loop of `solve_part_two` over the edge indices;
`Except.error` models `raise ValueError("Edges must be axis-aligned")`. -/
def markLoop (points : List (ℤ × ℤ)) (xs ys : List ℤ) :
    List Nat → (Nat → Nat → Bool) → Except String (Nat → Nat → Bool)
  | [], g => .ok g
  | i :: rest, g =>
    if (points.getD i (0, 0)).1 ≠ (points.getD ((i + 1) % points.length) (0, 0)).1 ∧
        (points.getD i (0, 0)).2 ≠ (points.getD ((i + 1) % points.length) (0, 0)).2 then
      .error "Edges must be axis-aligned"
    else if (points.getD i (0, 0)).1 = (points.getD ((i + 1) % points.length) (0, 0)).1 then
      markLoop points xs ys rest
        (markCol (idxOf xs (points.getD i (0, 0)).1)
          (idxOf ys (min (points.getD i (0, 0)).2 (points.getD ((i + 1) % points.length) (0, 0)).2))
          (idxOf ys (max (points.getD i (0, 0)).2 (points.getD ((i + 1) % points.length) (0, 0)).2 + 1))
          g)
    else
      markLoop points xs ys rest
        (markRow (idxOf ys (points.getD i (0, 0)).2)
          (idxOf xs (min (points.getD i (0, 0)).1 (points.getD ((i + 1) % points.length) (0, 0)).1))
          (idxOf xs (max (points.getD i (0, 0)).1 (points.getD ((i + 1) % points.length) (0, 0)).1 + 1))
          g)

/-- The flood-fill `enqueue`: in bounds, unvisited, and not a boundary tile;
marks visited and appends to the work queue. -/
def enq (wn hn : Nat) (allowed : Nat → Nat → Bool)
    (st : (Nat → Nat → Bool) × List (ℤ × ℤ)) (x y : ℤ) :
    (Nat → Nat → Bool) × List (ℤ × ℤ) :=
  if 0 ≤ x ∧ x < (wn : ℤ) ∧ 0 ≤ y ∧ y < (hn : ℤ) ∧
      st.1 x.toNat y.toNat = false ∧ allowed x.toNat y.toNat = false then
    (setTrue st.1 x.toNat y.toNat, st.2 ++ [(x, y)])
  else st

/-- Seeding of the flood fill from the outer frame of the compressed grid. -/
def seedFrame (wn hn : Nat) (allowed : Nat → Nat → Bool) :
    (Nat → Nat → Bool) × List (ℤ × ℤ) :=
  (List.range hn).foldl
    (fun st y => enq wn hn allowed (enq wn hn allowed st 0 (y : ℤ)) ((wn : ℤ) - 1) (y : ℤ))
    ((List.range wn).foldl
      (fun st x => enq wn hn allowed (enq wn hn allowed st (x : ℤ) 0) (x : ℤ) ((hn : ℤ) - 1))
      ((fun _ _ => false), []))

/-- The BFS while-loop.  The fuel `wn * hn` bounds the number of pops: every
enqueue marks a distinct cell visited, so at most `wn * hn` cells ever enter
the queue, which is what makes the Python `while q:` loop terminate. -/
def bfsLoop (wn hn : Nat) (allowed : Nat → Nat → Bool) :
    Nat → (Nat → Nat → Bool) × List (ℤ × ℤ) → (Nat → Nat → Bool)
  | 0, st => st.1
  | fuel + 1, st =>
    match st.2 with
    | [] => st.1
    | c :: rest =>
      bfsLoop wn hn allowed fuel
        (enq wn hn allowed (enq wn hn allowed (enq wn hn allowed (enq wn hn allowed
          (st.1, rest) (c.1 + 1) c.2) (c.1 - 1) c.2) c.1 (c.2 + 1)) c.1 (c.2 - 1))

/-- The exterior tiles found by the flood fill. -/
def visitedOf (wn hn : Nat) (allowed : Nat → Nat → Bool) : Nat → Nat → Bool :=
  bfsLoop wn hn allowed (wn * hn) (seedFrame wn hn allowed)

/-- The interior pass: in-range unvisited tiles become allowed. -/
def fillInterior (wn hn : Nat) (allowed visited : Nat → Nat → Bool) :
    Nat → Nat → Bool :=
  fun x y => if x < wn ∧ y < hn ∧ visited x y = false then true else allowed x y

/-- Tile weight of the prefix-sum construction:
`widths[x] * heights[y] if allowed[x][y] else 0`. -/
def areaF (xs ys : List ℤ) (allowed : Nat → Nat → Bool) (ix iy : Nat) : ℤ :=
  if allowed ix iy then (gaps xs).getD ix 0 * (gaps ys).getD iy 0 else 0

/-- The per-row accumulator `row_sum` after `y` inner iterations. -/
def rowSum (area : Nat → Nat → ℤ) (x : Nat) : Nat → ℤ
  | 0 => 0
  | y + 1 => rowSum area x y + area x y

/-- The table `prefix[x][y]` built by the nested loops
(`prefix[x][y] = prefix[x-1][y] + row_sum`). -/
def prefixF (area : Nat → Nat → ℤ) : Nat → Nat → ℤ
  | 0, _ => 0
  | _ + 1, 0 => 0
  | x + 1, y + 1 => prefixF area x (y + 1) + rowSum area x (y + 1)

/-- Models the `rect_area_sum(x0, x1, y0, y1)` closure. -/
def rectAreaSum (xs ys : List ℤ) (pre : Nat → Nat → ℤ) (x0 x1 y0 y1 : ℤ) : ℤ :=
  pre (idxOf xs (x1 + 1)) (idxOf ys (y1 + 1))
    - pre (idxOf xs x0) (idxOf ys (y1 + 1))
    - pre (idxOf xs (x1 + 1)) (idxOf ys y0)
    + pre (idxOf xs x0) (idxOf ys y0)

/-- The candidate-rectangle loop of `solve_part_two`. -/
def maxRectLoop (points : List (ℤ × ℤ)) (ras : ℤ → ℤ → ℤ → ℤ → ℤ) :
    List (Nat × Nat) → ℤ → ℤ
  | [], acc => acc
  | ij :: rest, acc =>
    if (abs ((points.getD ij.1 (0, 0)).1 - (points.getD ij.2 (0, 0)).1) + 1)
        * (abs ((points.getD ij.1 (0, 0)).2 - (points.getD ij.2 (0, 0)).2) + 1) ≤ acc then
      maxRectLoop points ras rest acc
    else if ras (min (points.getD ij.1 (0, 0)).1 (points.getD ij.2 (0, 0)).1)
        (max (points.getD ij.1 (0, 0)).1 (points.getD ij.2 (0, 0)).1)
        (min (points.getD ij.1 (0, 0)).2 (points.getD ij.2 (0, 0)).2)
        (max (points.getD ij.1 (0, 0)).2 (points.getD ij.2 (0, 0)).2)
        = (abs ((points.getD ij.1 (0, 0)).1 - (points.getD ij.2 (0, 0)).1) + 1)
          * (abs ((points.getD ij.1 (0, 0)).2 - (points.getD ij.2 (0, 0)).2) + 1) then
      maxRectLoop points ras rest
        ((abs ((points.getD ij.1 (0, 0)).1 - (points.getD ij.2 (0, 0)).1) + 1)
          * (abs ((points.getD ij.1 (0, 0)).2 - (points.getD ij.2 (0, 0)).2) + 1))
    else
      maxRectLoop points ras rest acc

/-- Everything `solve_part_two` does after a successful boundary marking. -/
def finishPartTwo (points : List (ℤ × ℤ)) (g : Nat → Nat → Bool) : ℤ :=
  maxRectLoop points
    (rectAreaSum (compressXs points) (compressYs points)
      (prefixF (areaF (compressXs points) (compressYs points)
        (fillInterior ((compressXs points).length - 1) ((compressYs points).length - 1)
          g
          (visitedOf ((compressXs points).length - 1) ((compressYs points).length - 1) g)))))
    (pairList points.length) 0

/-- Models `solve_part_two` of Day 9. -/
def solvePartTwo (instructions : List (List Char)) : Except String ℤ :=
  match parsePoints instructions with
  | .error e => .error e
  | .ok points =>
    if points.length < 2 then .ok 0
    else
      match markLoop points (compressXs points) (compressYs points)
          (List.range points.length) (fun _ _ => false) with
      | .error e => .error e
      | .ok g => .ok (finishPartTwo points g)

/-- The engine's final `allowed` grid for `points` (after boundary marking,
flood fill and interior fill); a run aborted by a diagonal edge yields the
all-false grid. -/
def allowedGridOf (points : List (ℤ × ℤ)) : Nat → Nat → Bool :=
  match markLoop points (compressXs points) (compressYs points)
      (List.range points.length) (fun _ _ => false) with
  | .error _ => fun _ _ => false
  | .ok g =>
    fillInterior ((compressXs points).length - 1) ((compressYs points).length - 1) g
      (visitedOf ((compressXs points).length - 1) ((compressYs points).length - 1) g)

/-- Vertex `i` starts a diagonal boundary edge (both coordinates change on
the way to the cyclically next vertex). -/
def diagAt (points : List (ℤ × ℤ)) (i : Nat) : Prop :=
  (points.getD i (0, 0)).1 ≠ (points.getD ((i + 1) % points.length) (0, 0)).1 ∧
  (points.getD i (0, 0)).2 ≠ (points.getD ((i + 1) % points.length) (0, 0)).2

instance (points : List (ℤ × ℤ)) (i : Nat) : Decidable (diagAt points i) := by
  unfold diagAt
  infer_instance

/-- The marking loop fails exactly on inputs with a diagonal edge. -/
theorem markLoop_error (points : List (ℤ × ℤ)) (xs ys : List ℤ) :
    ∀ (l : List Nat) (g : Nat → Nat → Bool),
      ((∃ i ∈ l, diagAt points i) →
        markLoop points xs ys l g = .error "Edges must be axis-aligned") ∧
      ((∀ i ∈ l, ¬ diagAt points i) →
        ∃ g', markLoop points xs ys l g = .ok g') := by
  intro l
  induction l with
  | nil =>
    intro g
    refine ⟨?_, ?_⟩
    · rintro ⟨i, hi, _⟩
      cases hi
    · intro _
      exact ⟨g, rfl⟩
  | cons i rest ih =>
    intro g
    have hdiag : diagAt points i ↔
        ((points.getD i (0, 0)).1 ≠ (points.getD ((i + 1) % points.length) (0, 0)).1 ∧
          (points.getD i (0, 0)).2 ≠ (points.getD ((i + 1) % points.length) (0, 0)).2) :=
      Iff.rfl
    by_cases hd : diagAt points i
    · refine ⟨?_, ?_⟩
      · intro _
        simp only [markLoop]
        rw [if_pos (hdiag.mp hd)]
      · intro hall
        exact absurd hd (hall i (List.mem_cons_self i rest))
    · simp only [markLoop]
      rw [if_neg (fun hc => hd (hdiag.mpr hc))]
      by_cases hv : (points.getD i (0, 0)).1
          = (points.getD ((i + 1) % points.length) (0, 0)).1
      · rw [if_pos hv]
        refine ⟨?_, ?_⟩
        · rintro ⟨j, hj, hdj⟩
          have hjrest : j ∈ rest := by
            cases hj with
            | head => exact absurd hdj hd
            | tail _ h => exact h
          exact (ih _).1 ⟨j, hjrest, hdj⟩
        · intro hall
          exact (ih _).2 (fun j hj => hall j (List.mem_cons_of_mem i hj))
      · rw [if_neg hv]
        refine ⟨?_, ?_⟩
        · rintro ⟨j, hj, hdj⟩
          have hjrest : j ∈ rest := by
            cases hj with
            | head => exact absurd hdj hd
            | tail _ h => exact h
          exact (ih _).1 ⟨j, hjrest, hdj⟩
        · intro hall
          exact (ih _).2 (fun j hj => hall j (List.mem_cons_of_mem i hj))

/-- The Day 9 parser ignores blank and `#`-comment lines wherever they occur. -/
theorem parsePoints_skip (sl : List Char) (hsl : skipLine sl = true) :
    ∀ pre suf, parsePoints (pre ++ sl :: suf) = parsePoints (pre ++ suf) := by
  intro pre
  induction pre with
  | nil =>
    intro suf
    show parsePoints (sl :: suf) = parsePoints suf
    simp only [parsePoints]
    rw [if_pos hsl]
  | cons l pre ih =>
    intro suf
    show parsePoints (l :: (pre ++ sl :: suf)) = parsePoints (l :: (pre ++ suf))
    simp only [parsePoints]
    rw [ih]

theorem mem_insertUnique {v a : ℤ} : ∀ l : List ℤ, a ∈ insertUnique v l ↔ a = v ∨ a ∈ l := by
  intro l
  induction l with
  | nil =>
    simp [insertUnique]
  | cons x xs ih =>
    by_cases h1 : v < x
    · simp only [insertUnique, if_pos h1]
      simp [List.mem_cons]
    · by_cases h2 : v = x
      · simp only [insertUnique, if_neg h1, if_pos h2]
        subst h2
        simp [List.mem_cons]
      · simp only [insertUnique, if_neg h1, if_neg h2]
        simp only [List.mem_cons, ih]
        tauto

theorem sorted_insertUnique {v : ℤ} :
    ∀ l : List ℤ, l.Sorted (· < ·) → (insertUnique v l).Sorted (· < ·) := by
  intro l
  induction l with
  | nil =>
    intro _
    simp [insertUnique, List.sorted_singleton]
  | cons x xs ih =>
    intro hs
    have hxlt : ∀ y ∈ xs, x < y := (List.pairwise_cons.mp hs).1
    have hxs : xs.Sorted (· < ·) := hs.of_cons
    by_cases h1 : v < x
    · simp only [insertUnique, if_pos h1]
      apply List.pairwise_cons.mpr
      refine ⟨?_, hs⟩
      intro y hy
      cases List.mem_cons.mp hy with
      | inl h => rw [h]; exact h1
      | inr h => exact lt_trans h1 (hxlt y h)
    · by_cases h2 : v = x
      · simp only [insertUnique, if_neg h1, if_pos h2]
        exact hs
      · simp only [insertUnique, if_neg h1, if_neg h2]
        apply List.pairwise_cons.mpr
        refine ⟨?_, ih hxs⟩
        intro y hy
        cases (mem_insertUnique xs).mp hy with
        | inl h => rw [h]; omega
        | inr h => exact hxlt y h

theorem sorted_sortedSet (l : List ℤ) : (sortedSet l).Sorted (· < ·) := by
  unfold sortedSet
  induction l with
  | nil => exact List.sorted_nil
  | cons x xs ih => exact sorted_insertUnique _ ih

theorem mem_sortedSet {l : List ℤ} {a : ℤ} : a ∈ sortedSet l ↔ a ∈ l := by
  unfold sortedSet
  induction l with
  | nil => simp
  | cons x xs ih =>
    show a ∈ insertUnique x (xs.foldr insertUnique []) ↔ _
    rw [mem_insertUnique, ih, List.mem_cons]

theorem idxOf_lt_length {v : ℤ} : ∀ {l : List ℤ}, v ∈ l → idxOf l v < l.length := by
  intro l
  induction l with
  | nil => intro h; cases h
  | cons x xs ih =>
    intro h
    by_cases hx : x = v
    · simp [idxOf, hx]
    · have hmem : v ∈ xs := by
        cases h with
        | head => exact absurd rfl hx
        | tail _ h => exact h
      simp only [idxOf, if_neg hx, List.length_cons]
      have := ih hmem
      omega

theorem getD_idxOf {v : ℤ} : ∀ {l : List ℤ}, v ∈ l → l.getD (idxOf l v) 0 = v := by
  intro l
  induction l with
  | nil => intro h; cases h
  | cons x xs ih =>
    intro h
    by_cases hx : x = v
    · simp [idxOf, hx]
    · have hmem : v ∈ xs := by
        cases h with
        | head => exact absurd rfl hx
        | tail _ h => exact h
      simp only [idxOf, if_neg hx]
      exact ih hmem

theorem sorted_getD_lt {xs : List ℤ} (hs : xs.Sorted (· < ·)) {i j : Nat}
    (hij : i < j) (hj : j < xs.length) : xs.getD i 0 < xs.getD j 0 := by
  rw [List.getD_eq_getElem xs 0 (by omega), List.getD_eq_getElem xs 0 hj]
  exact List.pairwise_iff_getElem.mp hs i j (by omega) hj hij

/-- The compressed tile containing the unit cell `[c, c+1)`: index of the
last compressed coordinate `≤ c`.  Reference notion for the brute force. -/
def tileOf (xs : List ℤ) (c : ℤ) : Nat :=
  (xs.takeWhile (fun v => decide (v ≤ c))).length - 1

theorem takeWhile_le_length {c : ℤ} :
    ∀ {xs : List ℤ}, xs.Sorted (· < ·) → ∀ {i : Nat}, i + 1 < xs.length →
      xs.getD i 0 ≤ c → c < xs.getD (i + 1) 0 →
      (xs.takeWhile (fun v => decide (v ≤ c))).length = i + 1 := by
  intro xs
  induction xs with
  | nil =>
    intro _ i hi
    simp at hi
  | cons x t ih =>
    intro hs i hi hlo hhi
    cases i with
    | zero =>
      have hx : x ≤ c := hlo
      rw [List.takeWhile_cons, if_pos (decide_eq_true hx)]
      cases t with
      | nil => simp at hi
      | cons y t' =>
        have hy : ¬ (y ≤ c) := by
          have : c < y := hhi
          omega
        rw [List.takeWhile_cons, if_neg (by
          rw [decide_eq_false hy]
          exact Bool.false_ne_true)]
        rfl
    | succ i' =>
      have hi' : i' + 1 < t.length := by
        simp only [List.length_cons] at hi
        omega
      have hlo' : t.getD i' 0 ≤ c := hlo
      have hhi' : c < t.getD (i' + 1) 0 := hhi
      have hx : x ≤ c := by
        have hxlt : x < t.getD i' 0 := by
          rw [List.getD_eq_getElem t 0 (by omega)]
          exact (List.pairwise_cons.mp hs).1 _ (List.getElem_mem (by omega))
        omega
      rw [List.takeWhile_cons, if_pos (decide_eq_true hx), List.length_cons,
        ih hs.of_cons hi' hlo' hhi']

theorem tileOf_eq {xs : List ℤ} (hs : xs.Sorted (· < ·)) {i : Nat} {c : ℤ}
    (hi1 : i + 1 < xs.length)
    (hlo : xs.getD i 0 ≤ c) (hhi : c < xs.getD (i + 1) 0) :
    tileOf xs c = i := by
  unfold tileOf
  rw [takeWhile_le_length hs hi1 hlo hhi]
  omega

/-- Grouping unit cells into compressed tiles: summing a function of the
containing tile over the cells of `[xs[lx], xs[lx+k])` equals the
width-weighted sum over the tiles `lx ≤ i < lx + k`. -/
theorem sum_Ico_consecutiveZ (f : ℤ → ℤ) {a b c : ℤ} (hab : a ≤ b) (hbc : b ≤ c) :
    Finset.sum (Finset.Ico a b) f + Finset.sum (Finset.Ico b c) f
      = Finset.sum (Finset.Ico a c) f := by
  rw [← Finset.Ico_union_Ico_eq_Ico hab hbc]
  exact (Finset.sum_union (Finset.Ico_disjoint_Ico_consecutive a b c)).symm

theorem sum_tile_group {xs : List ℤ} (hs : xs.Sorted (· < ·)) :
    ∀ (k lx : Nat), lx + k < xs.length →
      ∀ f : Nat → ℤ,
        Finset.sum (Finset.Ico (xs.getD lx 0) (xs.getD (lx + k) 0))
          (fun c => f (tileOf xs c))
        = Finset.sum (Finset.Ico lx (lx + k))
            (fun i => (xs.getD (i + 1) 0 - xs.getD i 0) * f i) := by
  intro k
  induction k with
  | zero =>
    intro lx _ f
    rw [Nat.add_zero, Finset.Ico_self, Finset.Ico_self, Finset.sum_empty,
      Finset.sum_empty]
  | succ k ih =>
    intro lx hlen f
    have h01 : xs.getD lx 0 < xs.getD (lx + 1) 0 :=
      sorted_getD_lt hs (by omega) (by omega)
    have h1B : xs.getD (lx + 1) 0 ≤ xs.getD (lx + (k + 1)) 0 := by
      rcases Nat.lt_or_ge (lx + 1) (lx + (k + 1)) with h | h
      · exact le_of_lt (sorted_getD_lt hs h (by omega))
      · have : lx + 1 = lx + (k + 1) := by omega
        rw [this]
    have hsplitL : Finset.sum (Finset.Ico (xs.getD lx 0) (xs.getD (lx + 1) 0))
          (fun c => f (tileOf xs c))
        + Finset.sum (Finset.Ico (xs.getD (lx + 1) 0) (xs.getD (lx + (k + 1)) 0))
          (fun c => f (tileOf xs c))
        = Finset.sum (Finset.Ico (xs.getD lx 0) (xs.getD (lx + (k + 1)) 0))
          (fun c => f (tileOf xs c)) :=
      sum_Ico_consecutiveZ _ (le_of_lt h01) h1B
    have hsplitR : Finset.sum (Finset.Ico lx (lx + 1))
          (fun i => (xs.getD (i + 1) 0 - xs.getD i 0) * f i)
        + Finset.sum (Finset.Ico (lx + 1) (lx + (k + 1)))
          (fun i => (xs.getD (i + 1) 0 - xs.getD i 0) * f i)
        = Finset.sum (Finset.Ico lx (lx + (k + 1)))
          (fun i => (xs.getD (i + 1) 0 - xs.getD i 0) * f i) :=
      Finset.sum_Ico_consecutive _ (by omega) (by omega)
    rw [← hsplitL, ← hsplitR]
    have hchunk : Finset.sum (Finset.Ico (xs.getD lx 0) (xs.getD (lx + 1) 0))
        (fun c => f (tileOf xs c))
        = (xs.getD (lx + 1) 0 - xs.getD lx 0) * f lx := by
      have hconst : Finset.sum (Finset.Ico (xs.getD lx 0) (xs.getD (lx + 1) 0))
          (fun c => f (tileOf xs c))
          = Finset.sum (Finset.Ico (xs.getD lx 0) (xs.getD (lx + 1) 0))
            (fun _ => f lx) := by
        apply Finset.sum_congr rfl
        intro c hc
        have hm := Finset.mem_Ico.mp hc
        rw [tileOf_eq hs (by omega) hm.1 hm.2]
      rw [hconst, Finset.sum_const, Int.card_Ico, nsmul_eq_mul,
        Int.toNat_of_nonneg (by omega)]
    have hsingle : Finset.sum (Finset.Ico lx (lx + 1))
        (fun i => (xs.getD (i + 1) 0 - xs.getD i 0) * f i)
        = (xs.getD (lx + 1) 0 - xs.getD lx 0) * f lx := by
      rw [Nat.Ico_succ_singleton, Finset.sum_singleton]
    have htail : Finset.sum (Finset.Ico (xs.getD (lx + 1) 0) (xs.getD (lx + (k + 1)) 0))
        (fun c => f (tileOf xs c))
        = Finset.sum (Finset.Ico (lx + 1) (lx + (k + 1)))
          (fun i => (xs.getD (i + 1) 0 - xs.getD i 0) * f i) := by
      have := ih (lx + 1) (by omega) f
      rw [show lx + 1 + k = lx + (k + 1) from by omega] at this
      exact this
    rw [hchunk, hsingle, htail]

theorem rowSum_eq (area : Nat → Nat → ℤ) (x : Nat) :
    ∀ y, rowSum area x y = Finset.sum (Finset.range y) (fun j => area x j) := by
  intro y
  induction y with
  | zero => rfl
  | succ y ih =>
    show rowSum area x y + area x y = _
    rw [ih, Finset.sum_range_succ]

/-- Closed form of the prefix table: the full top-left block sum. -/
theorem prefixF_eq (area : Nat → Nat → ℤ) :
    ∀ x y, prefixF area x y
      = Finset.sum (Finset.range x)
          (fun i => Finset.sum (Finset.range y) (fun j => area i j)) := by
  intro x
  induction x with
  | zero =>
    intro y
    rw [Finset.range_zero, Finset.sum_empty]
    rfl
  | succ x ih =>
    intro y
    cases y with
    | zero =>
      simp only [Finset.range_zero, Finset.sum_empty, Finset.sum_const,
        smul_zero]
      rfl
    | succ y =>
      have hstep : prefixF area (x + 1) (y + 1)
          = prefixF area x (y + 1) + rowSum area x (y + 1) := rfl
      rw [hstep, ih, rowSum_eq,
        Finset.sum_range_succ
          (fun i => Finset.sum (Finset.range (y + 1)) (fun j => area i j)) x]

/-- The inclusion-exclusion rectangle query over the prefix table. -/
theorem prefixF_rect (area : Nat → Nat → ℤ) {lx rx ly ry : Nat}
    (hx : lx ≤ rx) (hy : ly ≤ ry) :
    prefixF area rx ry - prefixF area lx ry - prefixF area rx ly + prefixF area lx ly
    = Finset.sum (Finset.Ico lx rx)
        (fun i => Finset.sum (Finset.Ico ly ry) (fun j => area i j)) := by
  have hinner : ∀ i, Finset.sum (Finset.Ico ly ry) (fun j => area i j)
      = Finset.sum (Finset.range ry) (fun j => area i j)
        - Finset.sum (Finset.range ly) (fun j => area i j) := by
    intro i
    exact Finset.sum_Ico_eq_sub _ hy
  have houter : Finset.sum (Finset.Ico lx rx)
      (fun i => Finset.sum (Finset.Ico ly ry) (fun j => area i j))
      = Finset.sum (Finset.range rx)
          (fun i => Finset.sum (Finset.Ico ly ry) (fun j => area i j))
        - Finset.sum (Finset.range lx)
          (fun i => Finset.sum (Finset.Ico ly ry) (fun j => area i j)) :=
    Finset.sum_Ico_eq_sub _ hx
  rw [houter]
  have hsub : ∀ m : Nat, Finset.sum (Finset.range m)
      (fun i => Finset.sum (Finset.Ico ly ry) (fun j => area i j))
      = Finset.sum (Finset.range m)
          (fun i => Finset.sum (Finset.range ry) (fun j => area i j))
        - Finset.sum (Finset.range m)
          (fun i => Finset.sum (Finset.range ly) (fun j => area i j)) := by
    intro m
    rw [← Finset.sum_sub_distrib]
    exact Finset.sum_congr rfl (fun i _ => hinner i)
  rw [hsub, hsub, prefixF_eq, prefixF_eq, prefixF_eq, prefixF_eq]
  ring

theorem gaps_getD {xs : List ℤ} {i : Nat} (h : i + 1 < xs.length) :
    (gaps xs).getD i 0 = xs.getD (i + 1) 0 - xs.getD i 0 := by
  unfold gaps
  rw [List.getD_eq_getElem?_getD, List.getElem?_map,
    List.getElem?_range (by omega : i < xs.length - 1)]
  rfl

/-- Reference computation taken from the spec's testable property: the
allowed area of a rectangle by brute-force iteration over its individual
unit cells, counting a cell when the compressed tile containing it is
marked allowed. -/
def bruteForceAllowedArea (xs ys : List ℤ) (allowed : Nat → Nat → Bool)
    (x0 x1 y0 y1 : ℤ) : ℤ :=
  Finset.sum (Finset.Icc x0 x1) (fun cx =>
    Finset.sum (Finset.Icc y0 y1) (fun cy =>
      if allowed (tileOf xs cx) (tileOf ys cy) then 1 else 0))

/-- The prefix-sum rectangle query agrees with brute-force unit-cell
counting, for any allowed grid and any query rectangle whose bounds are
compressed coordinates. -/
theorem rectAreaSum_eq_bruteForce {xs ys : List ℤ}
    (hxs : xs.Sorted (· < ·)) (hys : ys.Sorted (· < ·))
    (allowed : Nat → Nat → Bool) {x0 x1 y0 y1 : ℤ}
    (hx0 : x0 ∈ xs) (hx1 : x1 + 1 ∈ xs) (hy0 : y0 ∈ ys) (hy1 : y1 + 1 ∈ ys)
    (hxle : x0 ≤ x1) (hyle : y0 ≤ y1) :
    rectAreaSum xs ys (prefixF (areaF xs ys allowed)) x0 x1 y0 y1
    = bruteForceAllowedArea xs ys allowed x0 x1 y0 y1 := by
  have hlxget : xs.getD (idxOf xs x0) 0 = x0 := getD_idxOf hx0
  have hrxget : xs.getD (idxOf xs (x1 + 1)) 0 = x1 + 1 := getD_idxOf hx1
  have hlyget : ys.getD (idxOf ys y0) 0 = y0 := getD_idxOf hy0
  have hryget : ys.getD (idxOf ys (y1 + 1)) 0 = y1 + 1 := getD_idxOf hy1
  have hlx : idxOf xs x0 < xs.length := idxOf_lt_length hx0
  have hrx : idxOf xs (x1 + 1) < xs.length := idxOf_lt_length hx1
  have hly : idxOf ys y0 < ys.length := idxOf_lt_length hy0
  have hry : idxOf ys (y1 + 1) < ys.length := idxOf_lt_length hy1
  have hlxrx : idxOf xs x0 < idxOf xs (x1 + 1) := by
    by_contra hc
    push_neg at hc
    rcases Nat.lt_or_ge (idxOf xs (x1 + 1)) (idxOf xs x0) with h | h
    · have := sorted_getD_lt hxs h hlx
      omega
    · have heq : idxOf xs (x1 + 1) = idxOf xs x0 := by omega
      rw [heq, hlxget] at hrxget
      omega
  have hlyry : idxOf ys y0 < idxOf ys (y1 + 1) := by
    by_contra hc
    push_neg at hc
    rcases Nat.lt_or_ge (idxOf ys (y1 + 1)) (idxOf ys y0) with h | h
    · have := sorted_getD_lt hys h hly
      omega
    · have heq : idxOf ys (y1 + 1) = idxOf ys y0 := by omega
      rw [heq, hlyget] at hryget
      omega
  -- step 1: the query expands to the tile-block sum
  have hrect : rectAreaSum xs ys (prefixF (areaF xs ys allowed)) x0 x1 y0 y1
      = Finset.sum (Finset.Ico (idxOf xs x0) (idxOf xs (x1 + 1)))
          (fun i => Finset.sum (Finset.Ico (idxOf ys y0) (idxOf ys (y1 + 1)))
            (fun j => areaF xs ys allowed i j)) := by
    unfold rectAreaSum
    exact prefixF_rect _ (by omega) (by omega)
  -- step 2: the brute-force sum groups into the same tile-block sum
  have hinner : ∀ i : Nat,
      Finset.sum (Finset.Ico y0 (y1 + 1))
        (fun cy => (if allowed i (tileOf ys cy) then (1 : ℤ) else 0))
      = Finset.sum (Finset.Ico (idxOf ys y0) (idxOf ys (y1 + 1)))
          (fun j => (ys.getD (j + 1) 0 - ys.getD j 0)
            * (if allowed i j then (1 : ℤ) else 0)) := by
    intro i
    have := sum_tile_group hys (idxOf ys (y1 + 1) - idxOf ys y0) (idxOf ys y0)
      (by omega) (fun j => if allowed i j then (1 : ℤ) else 0)
    rw [show idxOf ys y0 + (idxOf ys (y1 + 1) - idxOf ys y0) = idxOf ys (y1 + 1)
      from by omega] at this
    rw [hlyget, hryget] at this
    exact this
  have houter : Finset.sum (Finset.Ico x0 (x1 + 1))
      (fun cx => Finset.sum (Finset.Ico (idxOf ys y0) (idxOf ys (y1 + 1)))
        (fun j => (ys.getD (j + 1) 0 - ys.getD j 0)
          * (if allowed (tileOf xs cx) j then (1 : ℤ) else 0)))
      = Finset.sum (Finset.Ico (idxOf xs x0) (idxOf xs (x1 + 1)))
          (fun i => (xs.getD (i + 1) 0 - xs.getD i 0)
            * Finset.sum (Finset.Ico (idxOf ys y0) (idxOf ys (y1 + 1)))
              (fun j => (ys.getD (j + 1) 0 - ys.getD j 0)
                * (if allowed i j then (1 : ℤ) else 0))) := by
    have := sum_tile_group hxs (idxOf xs (x1 + 1) - idxOf xs x0) (idxOf xs x0)
      (by omega)
      (fun i => Finset.sum (Finset.Ico (idxOf ys y0) (idxOf ys (y1 + 1)))
        (fun j => (ys.getD (j + 1) 0 - ys.getD j 0)
          * (if allowed i j then (1 : ℤ) else 0)))
    rw [show idxOf xs x0 + (idxOf xs (x1 + 1) - idxOf xs x0) = idxOf xs (x1 + 1)
      from by omega] at this
    rw [hlxget, hrxget] at this
    exact this
  have hbrute : bruteForceAllowedArea xs ys allowed x0 x1 y0 y1
      = Finset.sum (Finset.Ico (idxOf xs x0) (idxOf xs (x1 + 1)))
          (fun i => (xs.getD (i + 1) 0 - xs.getD i 0)
            * Finset.sum (Finset.Ico (idxOf ys y0) (idxOf ys (y1 + 1)))
              (fun j => (ys.getD (j + 1) 0 - ys.getD j 0)
                * (if allowed i j then (1 : ℤ) else 0))) := by
    unfold bruteForceAllowedArea
    have hIcc : Finset.Icc x0 x1 = Finset.Ico x0 (x1 + 1) := rfl
    have hIccY : Finset.Icc y0 y1 = Finset.Ico y0 (y1 + 1) := rfl
    rw [hIcc]
    rw [← houter]
    apply Finset.sum_congr rfl
    intro cx _
    rw [hIccY]
    exact hinner (tileOf xs cx)
  rw [hrect, hbrute]
  -- step 3: the tile-block summands agree
  apply Finset.sum_congr rfl
  intro i hi
  have hiIco := Finset.mem_Ico.mp hi
  have hi1 : i + 1 < xs.length := by omega
  rw [Finset.mul_sum]
  apply Finset.sum_congr rfl
  intro j hj
  have hjIco := Finset.mem_Ico.mp hj
  have hj1 : j + 1 < ys.length := by omega
  unfold areaF
  rw [gaps_getD hi1, gaps_getD hj1]
  by_cases hc : allowed i j
  · rw [if_pos hc, if_pos hc]
    ring
  · rw [if_neg hc, if_neg hc]
    ring

theorem sorted_compressXs (points : List (ℤ × ℤ)) :
    (compressXs points).Sorted (· < ·) := by
  unfold compressXs
  exact sorted_sortedSet _

theorem sorted_compressYs (points : List (ℤ × ℤ)) :
    (compressYs points).Sorted (· < ·) := by
  unfold compressYs
  exact sorted_sortedSet _

end Day9

/-- C1 counterexample: on the single-point input the final-connection
operation reaches the `"Graph did not become fully connected"` error (the
edge loop is empty, so the early return is never taken), contradicting the
claim that every `n ≥ 1` input returns a defined result without raising. -/
theorem c1_counterexample_single_point_raises :
    Day8.finalConnectionProduct [((1 : ℤ), (2 : ℤ), (3 : ℤ))] = none ∧
    Day8.solvePartTwo ["1,2,3".toList]
      = Except.error "Graph did not become fully connected" := by
  constructor
  · rfl
  · rfl

/-- C1 (amended): for every input of `n ≥ 2` parsed 3D points the
final-connection operation terminates by returning the x-coordinate product
of the last merged pair (`some` value) and never reaches the
`"Graph did not become fully connected"` internal-consistency error; the
single-point case, contrary to the claim, does raise. -/
theorem c1_amended_final_connection_returns (pts : List Day8.Pt)
    (h2 : 2 ≤ pts.length) :
    ∃ v, Day8.finalConnectionProduct pts = some v :=
  Day8.finalConnectionProduct_isSome pts h2

theorem c1_amended_final_connection_returns_witness :
    2 ≤ ([((0 : ℤ), (0 : ℤ), (0 : ℤ)), ((1 : ℤ), (0 : ℤ), (0 : ℤ))] : List Day8.Pt).length ∧
    ∃ v, Day8.finalConnectionProduct
      [((0 : ℤ), (0 : ℤ), (0 : ℤ)), ((1 : ℤ), (0 : ℤ), (0 : ℤ))] = some v :=
  ⟨by decide,
    c1_amended_final_connection_returns
      [((0 : ℤ), (0 : ℤ), (0 : ℤ)), ((1 : ℤ), (0 : ℤ), (0 : ℤ))] (by decide)⟩

/-- C2 counterexample: an input consisting of a single blank line yields
zero points but raises the `"No junction box coordinates found"` parse
error instead of returning a defined zero result, contradicting the claim
for non-empty line lists of blank lines. -/
theorem c2_counterexample_blank_lines_raise :
    Day8.solvePartOne [[' ']] 1000
      = Except.error "No junction box coordinates found in the input." ∧
    Day8.solvePartTwo [[' ']]
      = Except.error "No junction box coordinates found in the input." := by
  constructor
  · rfl
  · rfl

/-- C2 (amended): for the empty line list both clustering operations return
the defined answer `0` without raising, and the engine-level
`_component_sizes_after_k_edges` on zero points returns the empty multiset;
a non-empty line list that yields zero points (only blank lines) instead
raises a parse error. -/
theorem c2_amended_empty_input_zero :
    (∀ k, Day8.solvePartOne [] k = Except.ok 0) ∧
    Day8.solvePartTwo [] = Except.ok 0 ∧
    (∀ k, Day8.componentSizesAfterKEdges [] k = []) := by
  refine ⟨fun k => rfl, rfl, fun k => ?_⟩
  simp [Day8.componentSizesAfterKEdges, Day8.sortedEdges, Day8.rawEdges,
    Day8.applyEdges, Day8.collectSizes, List.take_nil]

/-- C3: for every list of points and every `k ≥ 0`, the component sizes
reported by `_component_sizes_after_k_edges(points, k)` sum to the number
of points: the union calls preserve the partition of the point indices. -/
theorem c3_component_sizes_sum_eq_n (pts : List Day8.Pt) (k : Nat) :
    (Day8.componentSizesAfterKEdges pts k).sum = pts.length := by
  unfold Day8.componentSizesAfterKEdges
  rw [(List.perm_insertionSort (fun a b => a ≥ b) _).sum_eq]
  exact Day8.collectSizes_sum
    (Day8.applyEdges_spec ((Day8.sortedEdges pts).take k) (List.range pts.length)
      (List.replicate pts.length 1) (Day8.engineInv_init pts.length)
      (fun e he => Day8.sortedEdges_mem_lt (List.take_subset k _ he))).1

/-- C4: for every boundary point list, the polygon engine's prefix-sum query
`rect_area_sum(x0, x1, y0, y1)` over the tiles marked allowed equals the
allowed area obtained by brute-force iteration over the individual unit
cells of the same rectangle, whenever the query bounds are compressed
coordinates (which all of the engine's own queries are). -/
theorem c4_rect_area_sum_eq_bruteforce (points : List (ℤ × ℤ))
    (x0 x1 y0 y1 : ℤ)
    (hx0 : x0 ∈ Day9.compressXs points) (hx1 : x1 + 1 ∈ Day9.compressXs points)
    (hy0 : y0 ∈ Day9.compressYs points) (hy1 : y1 + 1 ∈ Day9.compressYs points)
    (hxle : x0 ≤ x1) (hyle : y0 ≤ y1) :
    Day9.rectAreaSum (Day9.compressXs points) (Day9.compressYs points)
      (Day9.prefixF (Day9.areaF (Day9.compressXs points) (Day9.compressYs points)
        (Day9.allowedGridOf points))) x0 x1 y0 y1
    = Day9.bruteForceAllowedArea (Day9.compressXs points) (Day9.compressYs points)
        (Day9.allowedGridOf points) x0 x1 y0 y1 :=
  Day9.rectAreaSum_eq_bruteForce (Day9.sorted_compressXs points)
    (Day9.sorted_compressYs points) _ hx0 hx1 hy0 hy1 hxle hyle

set_option maxRecDepth 100000 in
theorem c4_rect_area_sum_eq_bruteforce_witness :
    ((0 : ℤ) ∈ Day9.compressXs [(0, 0), (2, 0), (2, 2), (0, 2)] ∧
      (2 : ℤ) + 1 ∈ Day9.compressXs [(0, 0), (2, 0), (2, 2), (0, 2)] ∧
      (0 : ℤ) ∈ Day9.compressYs [(0, 0), (2, 0), (2, 2), (0, 2)] ∧
      (2 : ℤ) + 1 ∈ Day9.compressYs [(0, 0), (2, 0), (2, 2), (0, 2)] ∧
      (0 : ℤ) ≤ 2 ∧ (0 : ℤ) ≤ 2) ∧
    Day9.rectAreaSum (Day9.compressXs [(0, 0), (2, 0), (2, 2), (0, 2)])
      (Day9.compressYs [(0, 0), (2, 0), (2, 2), (0, 2)])
      (Day9.prefixF (Day9.areaF (Day9.compressXs [(0, 0), (2, 0), (2, 2), (0, 2)])
        (Day9.compressYs [(0, 0), (2, 0), (2, 2), (0, 2)])
        (Day9.allowedGridOf [(0, 0), (2, 0), (2, 2), (0, 2)]))) 0 2 0 2
    = Day9.bruteForceAllowedArea (Day9.compressXs [(0, 0), (2, 0), (2, 2), (0, 2)])
        (Day9.compressYs [(0, 0), (2, 0), (2, 2), (0, 2)])
        (Day9.allowedGridOf [(0, 0), (2, 0), (2, 2), (0, 2)]) 0 2 0 2 :=
  ⟨⟨by decide, by decide, by decide, by decide, by decide, by decide⟩,
    c4_rect_area_sum_eq_bruteforce [(0, 0), (2, 0), (2, 2), (0, 2)] 0 2 0 2
      (by decide) (by decide) (by decide) (by decide) (by decide) (by decide)⟩

/-- C5: for every list of `n ≥ 1` points, if `k` is at least the edge count
`n*(n-1)/2` then every available edge is applied and the result of
`_component_sizes_after_k_edges` is exactly one component of size `n`. -/
theorem c5_all_edges_single_component (pts : List Day8.Pt) (k : Nat)
    (h1 : 1 ≤ pts.length) (hk : pts.length * (pts.length - 1) / 2 ≤ k) :
    Day8.componentSizesAfterKEdges pts k = [pts.length] :=
  Day8.componentSizes_all_edges pts k h1 hk

theorem c5_all_edges_single_component_witness :
    1 ≤ ([((0 : ℤ), (0 : ℤ), (0 : ℤ)), ((1 : ℤ), (0 : ℤ), (0 : ℤ))] : List Day8.Pt).length ∧
    ([((0 : ℤ), (0 : ℤ), (0 : ℤ)), ((1 : ℤ), (0 : ℤ), (0 : ℤ))] : List Day8.Pt).length
      * (([((0 : ℤ), (0 : ℤ), (0 : ℤ)), ((1 : ℤ), (0 : ℤ), (0 : ℤ))] : List Day8.Pt).length - 1)
      / 2 ≤ 1 ∧
    Day8.componentSizesAfterKEdges
      [((0 : ℤ), (0 : ℤ), (0 : ℤ)), ((1 : ℤ), (0 : ℤ), (0 : ℤ))] 1 = [2] :=
  ⟨by decide, by decide,
    c5_all_edges_single_component
      [((0 : ℤ), (0 : ℤ), (0 : ℤ)), ((1 : ℤ), (0 : ℤ), (0 : ℤ))] 1 (by decide) (by decide)⟩

set_option maxRecDepth 100000 in
/-- C6: on the rectangle boundary `(0,0) -> (4,0) -> (4,4) -> (0,4) -> (0,0)`
(the wraparound edge closing the cycle), the polygon engine's maximum
fully-interior rectangle over all vertex pairs is `5 × 5 = 25` inclusive
unit cells. -/
theorem c6_rectangle_boundary_answer_25 :
    Day9.solvePartTwo ["0,0".toList, "4,0".toList, "4,4".toList, "0,4".toList]
      = Except.ok 25 := rfl

/-- C7: after a successful parse of at least two points, the polygon engine
raises the `"Edges must be axis-aligned"` format error exactly when some
pair of cyclically consecutive boundary points differs in both coordinates;
when every consecutive pair differs in at most one coordinate it returns a
value instead. -/
theorem c7_diagonal_edge_error_iff (lines : List (List Char))
    (points : List (ℤ × ℤ))
    (hp : Day9.parsePoints lines = Except.ok points) :
    ((∃ i, i < points.length ∧ Day9.diagAt points i) →
      Day9.solvePartTwo lines = Except.error "Edges must be axis-aligned") ∧
    ((∀ i, i < points.length → ¬ Day9.diagAt points i) →
      ∃ v, Day9.solvePartTwo lines = Except.ok v) := by
  by_cases hlen : points.length < 2
  · constructor
    · rintro ⟨i, hi, hd⟩
      -- with fewer than two points no consecutive pair can differ at all
      exfalso
      have h1 : points.length = 1 := by omega
      have hi0 : i = 0 := by omega
      subst hi0
      unfold Day9.diagAt at hd
      rw [h1] at hd
      norm_num at hd
    · intro _
      refine ⟨0, ?_⟩
      simp only [Day9.solvePartTwo, hp]
      rw [if_pos hlen]
  · constructor
    · rintro ⟨i, hi, hd⟩
      have herr := (Day9.markLoop_error points (Day9.compressXs points)
        (Day9.compressYs points) (List.range points.length) (fun _ _ => false)).1
        ⟨i, List.mem_range.mpr hi, hd⟩
      simp only [Day9.solvePartTwo, hp]
      rw [if_neg hlen, herr]
    · intro hall
      obtain ⟨g, hg⟩ := (Day9.markLoop_error points (Day9.compressXs points)
        (Day9.compressYs points) (List.range points.length) (fun _ _ => false)).2
        (fun i hi => hall i (List.mem_range.mp hi))
      refine ⟨Day9.finishPartTwo points g, ?_⟩
      simp only [Day9.solvePartTwo, hp]
      rw [if_neg hlen, hg]

theorem c7_diagonal_edge_error_iff_witness :
    Day9.parsePoints ["0,0".toList, "1,1".toList]
      = Except.ok [((0 : ℤ), (0 : ℤ)), ((1 : ℤ), (1 : ℤ))] ∧
    Day9.solvePartTwo ["0,0".toList, "1,1".toList]
      = Except.error "Edges must be axis-aligned" :=
  ⟨by rfl,
    (c7_diagonal_edge_error_iff ["0,0".toList, "1,1".toList]
      [((0 : ℤ), (0 : ℤ)), ((1 : ℤ), (1 : ℤ))] (by rfl)).1
      ⟨0, by decide, by decide⟩⟩

/-- C8: when the Day 9 input parses to fewer than two points, both polygon
operations return `0` without raising. -/
theorem c8_fewer_than_two_points_return_zero (lines : List (List Char))
    (points : List (ℤ × ℤ))
    (hp : Day9.parsePoints lines = Except.ok points) (hlen : points.length < 2) :
    Day9.solvePartOne lines = Except.ok 0 ∧ Day9.solvePartTwo lines = Except.ok 0 := by
  constructor
  · simp only [Day9.solvePartOne, hp]
    rw [if_pos hlen]
  · simp only [Day9.solvePartTwo, hp]
    rw [if_pos hlen]

theorem c8_fewer_than_two_points_return_zero_witness :
    Day9.parsePoints ["5,7".toList] = Except.ok [((5 : ℤ), (7 : ℤ))] ∧
    Day9.solvePartOne ["5,7".toList] = Except.ok 0 ∧
    Day9.solvePartTwo ["5,7".toList] = Except.ok 0 :=
  ⟨by rfl,
    (c8_fewer_than_two_points_return_zero ["5,7".toList] [((5 : ℤ), (7 : ℤ))]
      (by rfl) (by decide)).1,
    (c8_fewer_than_two_points_return_zero ["5,7".toList] [((5 : ℤ), (7 : ℤ))]
      (by rfl) (by decide)).2⟩

/-- C9: all four engine operations are pure functions of their line list:
equal inputs give equal outputs, with no hidden state (in this embedding
each operation is a function, so two runs on identical inputs coincide). -/
theorem c9_engines_deterministic (l1 l2 : List (List Char)) (k : Nat)
    (h : l1 = l2) :
    Day8.solvePartOne l1 k = Day8.solvePartOne l2 k ∧
    Day8.solvePartTwo l1 = Day8.solvePartTwo l2 ∧
    Day9.solvePartOne l1 = Day9.solvePartOne l2 ∧
    Day9.solvePartTwo l1 = Day9.solvePartTwo l2 := by
  subst h
  exact ⟨rfl, rfl, rfl, rfl⟩

theorem c9_engines_deterministic_witness :
    Day8.solvePartOne ["1,2,3".toList] 1000 = Day8.solvePartOne ["1,2,3".toList] 1000 ∧
    Day8.solvePartTwo ["1,2,3".toList] = Day8.solvePartTwo ["1,2,3".toList] ∧
    Day9.solvePartOne ["1,2,3".toList] = Day9.solvePartOne ["1,2,3".toList] ∧
    Day9.solvePartTwo ["1,2,3".toList] = Day9.solvePartTwo ["1,2,3".toList] :=
  c9_engines_deterministic ["1,2,3".toList] ["1,2,3".toList] 1000 rfl

/-- C10: inserting (or removing) a line that is blank after stripping or
whose stripped text starts with `#` anywhere in the Day 9 input leaves both
operations' results unchanged and never causes a parse error. -/
theorem c10_skip_lines_preserve_result (pre suf : List (List Char))
    (sl : List Char) (hsl : Day9.skipLine sl = true) :
    Day9.solvePartOne (pre ++ sl :: suf) = Day9.solvePartOne (pre ++ suf) ∧
    Day9.solvePartTwo (pre ++ sl :: suf) = Day9.solvePartTwo (pre ++ suf) := by
  have h := Day9.parsePoints_skip sl hsl pre suf
  constructor
  · simp only [Day9.solvePartOne, h]
  · simp only [Day9.solvePartTwo, h]

theorem c10_skip_lines_preserve_result_witness :
    Day9.skipLine "  # comment".toList = true ∧
    Day9.solvePartOne ["0,0".toList, "  # comment".toList, "3,4".toList]
      = Day9.solvePartOne ["0,0".toList, "3,4".toList] ∧
    Day9.solvePartTwo ["0,0".toList, "  # comment".toList, "3,4".toList]
      = Day9.solvePartTwo ["0,0".toList, "3,4".toList] :=
  ⟨by decide,
    (c10_skip_lines_preserve_result ["0,0".toList] ["3,4".toList]
      "  # comment".toList (by decide)).1,
    (c10_skip_lines_preserve_result ["0,0".toList] ["3,4".toList]
      "  # comment".toList (by decide)).2⟩
